import Mathlib

/-!
Verification development for the lending-protocol accounting core in
`defi_env.py`.  The Python classes `DefiEnv`, `Token`, `Wallet`, `aToken`,
`vToken` and `LendingPool` are shallowly embedded: Python `dict`s become
association lists (first-occurrence lookup, in-place update, append of new
keys — exactly the observable behaviour of a Python `dict`), Python floats
become exact rationals `ℚ`, `float('inf')` becomes a dedicated constructor,
and a Python function that can raise (`assert`, `TypeError` from a missing
price) returns `Option`/`Except`.  An `assert` raised in the middle of a
method leaves the mutations already performed in place, so the stateful
transitions return `Except St St`: `.error s` carries the state as it was at
the moment of the raise.
-/

set_option maxHeartbeats 1000000

namespace Defi

/-- Lookup in an association list, mirroring `d.get(k)` on a Python dict:
the first entry with the key wins. -/
def dget {β : Type} (d : List (String × β)) (k : String) : Option β :=
  match d with
  | [] => none
  | (k', v) :: rest => if k' = k then some v else dget rest k

/-- `d.get(k, v₀)` on a Python dict. -/
def dgetD {β : Type} (d : List (String × β)) (k : String) (v₀ : β) : β :=
  (dget d k).getD v₀

/-- `d[k] = v` on a Python dict: overwrite the existing entry in place
(keeping insertion order) or append a fresh entry at the end. -/
def dset {β : Type} (d : List (String × β)) (k : String) (v : β) :
    List (String × β) :=
  match d with
  | [] => [(k, v)]
  | (k', v') :: rest => if k' = k then (k, v) :: rest else (k', v') :: dset rest k v

@[simp] theorem dget_nil {β : Type} (k : String) : dget ([] : List (String × β)) k = none := rfl

theorem dget_cons {β : Type} (k' : String) (v : β) (rest : List (String × β)) (k : String) :
    dget ((k', v) :: rest) k = if k' = k then some v else dget rest k := rfl

@[simp] theorem dget_dset_self {β : Type} (d : List (String × β)) (k : String) (v : β) :
    dget (dset d k v) k = some v := by
  induction d with
  | nil => simp [dget, dset]
  | cons e rest ih =>
    obtain ⟨k', v'⟩ := e
    by_cases h : k' = k
    · simp [dget, dset, h]
    · simp [dget, dset, h, ih]

@[simp] theorem dget_dset_ne {β : Type} (d : List (String × β)) (k k' : String) (v : β)
    (h : k ≠ k') : dget (dset d k v) k' = dget d k' := by
  induction d with
  | nil => simp [dget, dset, h]
  | cons e rest ih =>
    obtain ⟨k₀, v₀⟩ := e
    by_cases h0 : k₀ = k
    · subst h0; simp [dget, dset, h]
    · simp only [dset, if_neg h0, dget]
      by_cases h1 : k₀ = k'
      · simp [h1]
      · simp [h1, ih]

theorem dgetD_dset_self {β : Type} (d : List (String × β)) (k : String) (v v₀ : β) :
    dgetD (dset d k v) k v₀ = v := by
  simp [dgetD]

theorem dgetD_dset_ne {β : Type} (d : List (String × β)) (k k' : String) (v v₀ : β)
    (h : k ≠ k') : dgetD (dset d k v) k' v₀ = dgetD d k' v₀ := by
  simp [dgetD, dget_dset_ne _ _ _ _ h]

theorem dgetD_dset {β : Type} (d : List (String × β)) (k k' : String) (v v₀ : β) :
    dgetD (dset d k v) k' v₀ = if k = k' then v else dgetD d k' v₀ := by
  by_cases h : k = k'
  · subst h; simp [dgetD_dset_self]
  · simp [h, dgetD_dset_ne _ _ _ _ _ h]

/-- Setting a key twice keeps only the second value. -/
theorem dset_dset_same {β : Type} (d : List (String × β)) (k : String) (v v' : β) :
    dset (dset d k v) k v' = dset d k v' := by
  induction d with
  | nil => simp [dset]
  | cons e rest ih =>
    obtain ⟨k₀, v₀⟩ := e
    by_cases h : k₀ = k
    · simp [dset, h]
    · simp [dset, h, ih]

theorem mem_dset {β : Type} {d : List (String × β)} {k : String} {v : β} {e : String × β}
    (h : e ∈ dset d k v) : e ∈ d ∨ e = (k, v) := by
  induction d with
  | nil => simp [dset] at h; simp [h]
  | cons e₀ rest ih =>
    obtain ⟨k₀, v₀⟩ := e₀
    by_cases h0 : k₀ = k
    · simp only [dset, if_pos h0] at h
      rcases List.mem_cons.mp h with h | h
      · right; exact h
      · left; exact List.mem_cons_of_mem _ h
    · simp only [dset, if_neg h0] at h
      rcases List.mem_cons.mp h with h | h
      · left; exact h ▸ List.mem_cons_self _ _
      · rcases ih h with h | h
        · left; exact List.mem_cons_of_mem _ h
        · right; exact h

theorem keys_dset_nodup {β : Type} {d : List (String × β)} (k : String) (v : β)
    (h : (d.map Prod.fst).Nodup) : ((dset d k v).map Prod.fst).Nodup := by
  induction d with
  | nil => simp [dset]
  | cons e rest ih =>
    obtain ⟨k₀, v₀⟩ := e
    simp only [List.map_cons, List.nodup_cons] at h
    by_cases h0 : k₀ = k
    · have hset : dset ((k₀, v₀) :: rest) k v = (k, v) :: rest := by simp [dset, h0]
      rw [hset, List.map_cons, List.nodup_cons]
      rw [h0] at h
      exact h
    · simp only [dset, if_neg h0, List.map_cons, List.nodup_cons]
      refine ⟨?_, ih h.2⟩
      intro hmem
      rcases List.mem_map.mp hmem with ⟨e, he, hfst⟩
      rcases mem_dset he with he' | he'
      · exact h.1 (List.mem_map.mpr ⟨e, he', hfst⟩)
      · exact h0 (by rw [he'] at hfst; exact hfst.symm)

theorem dget_mem {β : Type} {d : List (String × β)} {k : String} {v : β}
    (h : dget d k = some v) : (k, v) ∈ d := by
  induction d with
  | nil => simp [dget] at h
  | cons e rest ih =>
    obtain ⟨k₀, v₀⟩ := e
    by_cases h0 : k₀ = k
    · subst h0
      simp [dget] at h
      simp [h]
    · simp only [dget, if_neg h0] at h
      exact List.mem_cons_of_mem _ (ih h)

theorem dget_eq_none_of_not_mem {β : Type} {d : List (String × β)} {k : String}
    (h : k ∉ d.map Prod.fst) : dget d k = none := by
  induction d with
  | nil => rfl
  | cons e rest ih =>
    obtain ⟨k₀, v₀⟩ := e
    simp only [List.map_cons, List.mem_cons] at h
    push_neg at h
    simp only [dget, if_neg (Ne.symm h.1)]
    exact ih h.2

/-! ## Data model

`LendingPool` carries the configuration fields set in `LendingPool.__init__`;
the mutable `underlying_reserves` field lives in the global state `St` below,
keyed by the pool's underlying symbol (the key under which the pool is
registered in `env.lending_pools`).  The `aToken`/`vToken` subclasses are
represented by their symbols (`a_token` / `v_token`): a symbol *is* a
supply-claim (resp. debt-claim) token exactly when it is some pool's
`a_token` (resp. `v_token`), mirroring `isinstance(token, aToken)` together
with the `token.pool` back-reference. -/

structure LendingPool where
  underlying_token : String
  a_token : String
  v_token : String
  interest_rate : ℚ
  reserve_rate : ℚ
  max_ltv : ℚ
  liquidation_bonus : ℚ
  liquidation_threshold : ℚ
  closing_factor : ℚ
deriving DecidableEq, Repr

/-- The immutable part of `DefiEnv`: the registered pools and the price
table (`env.prices`; `Token.price` is `env.prices.get(symbol, None)`). -/
structure Config where
  pools : List LendingPool
  prices : List (String × ℚ)
deriving DecidableEq, Repr

/-- The pool whose supply-claim (`aToken`) symbol is `s`, if any:
`isinstance(token, aToken)` plus `token.pool`. -/
def lookupAPool (cfg : Config) (s : String) : Option LendingPool :=
  cfg.pools.find? (fun p => p.a_token = s)

/-- The pool whose debt-claim (`vToken`) symbol is `s`, if any. -/
def lookupVPool (cfg : Config) (s : String) : Option LendingPool :=
  cfg.pools.find? (fun p => p.v_token = s)

/-- `Token.price`: `self.env.prices.get(self.symbol, None)`. -/
def priceOf (cfg : Config) (s : String) : Option ℚ :=
  dget cfg.prices s

/-- Registration well-formedness guaranteed by the `assert`s in
`Token.__init__` and `LendingPool.__init__`: every registered token symbol
is unique, hence the three symbols of a pool are pairwise distinct, the
claim-token symbols of distinct pools are pairwise distinct, and pools are
registered under pairwise distinct underlying symbols. -/
def Config.WF (cfg : Config) : Prop :=
  cfg.pools.Pairwise (fun p q =>
    p.underlying_token ≠ q.underlying_token ∧ p.a_token ≠ q.a_token ∧
    p.a_token ≠ q.v_token ∧ p.v_token ≠ q.a_token ∧ p.v_token ≠ q.v_token) ∧
  ∀ p ∈ cfg.pools, p.underlying_token ≠ p.a_token ∧
    p.underlying_token ≠ p.v_token ∧ p.a_token ≠ p.v_token

instance (cfg : Config) : Decidable cfg.WF := by
  unfold Config.WF; infer_instance

/-- A Python object can be an `aToken` or a `vToken` but never both; with
symbol-keyed tokens this is the statement that no symbol is the `a_token`
of one pool and the `v_token` of another, which follows from symbol
uniqueness at registration. -/
theorem Config.WF.aPool_vPool_disjoint {cfg : Config} (h : cfg.WF) (s : String) :
    lookupAPool cfg s = none ∨ lookupVPool cfg s = none := by
  by_cases ha : lookupAPool cfg s = none
  · exact Or.inl ha
  · right
    rcases Option.ne_none_iff_exists'.mp ha with ⟨p, hp⟩
    have hpa : p ∈ cfg.pools ∧ p.a_token = s := by
      have := List.find?_some hp
      exact ⟨List.mem_of_find?_eq_some hp, by simpa using this⟩
    by_contra hv
    rcases Option.ne_none_iff_exists'.mp hv with ⟨q, hq⟩
    have hqv : q ∈ cfg.pools ∧ q.v_token = s := by
      have := List.find?_some hq
      exact ⟨List.mem_of_find?_eq_some hq, by simpa using this⟩
    by_cases hpq : p = q
    · subst hpq
      have := (h.2 p hpa.1).2.2
      rw [hpa.2, hqv.2] at this
      exact this rfl
    · rcases List.Pairwise.forall_of_forall (R := fun p q =>
        p.a_token ≠ q.v_token ∧ p.v_token ≠ q.a_token)
        (fun a b hab => ⟨Ne.symm hab.2, Ne.symm hab.1⟩)
        (fun a _ha => ⟨(h.2 a ‹a ∈ cfg.pools›).2.2, fun hc =>
          (h.2 a ‹a ∈ cfg.pools›).2.2 hc.symm⟩)
        (List.Pairwise.imp (fun hab => ⟨hab.2.2.1, hab.2.2.2.1⟩) h.1)
        hpa.1 hqv.1 with ⟨h1, _h2⟩
      exact h1 (hpa.2.trans hqv.2.symm)

/-! ## Wallet USD aggregates

`Wallet.balances` is a dict from tokens to amounts; here a wallet's balances
are `List (String × ℚ)` keyed by token symbol.  Each aggregate walks the
balance entries in order exactly as the Python `for token, amount in
self.balances.items()` loops do.  A missing price makes the Python loop
raise a `TypeError` (`amount * None`), aborting the whole computation, so
the aggregates return `Option ℚ`, `none` on such a failure — note that even
a zero-amount entry of a claim token dereferences the price. -/

/-- `Wallet.total_supplied_usd`: Σ over `aToken` holdings of
`amount * pool.underlying_token.price`. -/
def Wallet.total_supplied_usd (cfg : Config) : List (String × ℚ) → Option ℚ
  | [] => some 0
  | (s, amount) :: rest =>
    match lookupAPool cfg s with
    | some pool =>
      match priceOf cfg pool.underlying_token, Wallet.total_supplied_usd cfg rest with
      | some pr, some t => some (amount * pr + t)
      | _, _ => none
    | none => Wallet.total_supplied_usd cfg rest

/-- `Wallet.total_borrowed_usd`: Σ over `vToken` holdings of
`amount * pool.underlying_token.price`. -/
def Wallet.total_borrowed_usd (cfg : Config) : List (String × ℚ) → Option ℚ
  | [] => some 0
  | (s, amount) :: rest =>
    match lookupVPool cfg s with
    | some pool =>
      match priceOf cfg pool.underlying_token, Wallet.total_borrowed_usd cfg rest with
      | some pr, some t => some (amount * pr + t)
      | _, _ => none
    | none => Wallet.total_borrowed_usd cfg rest

/-- `Wallet.total_collateral_usd`: Σ over `aToken` holdings of
`amount * pool.underlying_token.price * pool.max_ltv`. -/
def Wallet.total_collateral_usd (cfg : Config) : List (String × ℚ) → Option ℚ
  | [] => some 0
  | (s, amount) :: rest =>
    match lookupAPool cfg s with
    | some pool =>
      match priceOf cfg pool.underlying_token, Wallet.total_collateral_usd cfg rest with
      | some pr, some t => some (amount * pr * pool.max_ltv + t)
      | _, _ => none
    | none => Wallet.total_collateral_usd cfg rest

/-- The `weighted_liquidation_threshold_sum` loop inside
`Wallet.health_factor`: Σ over `aToken` holdings of
`(amount * price * max_ltv) * liquidation_threshold`. -/
def Wallet.weightedLiqThresholdSum (cfg : Config) : List (String × ℚ) → Option ℚ
  | [] => some 0
  | (s, amount) :: rest =>
    match lookupAPool cfg s with
    | some pool =>
      match priceOf cfg pool.underlying_token, Wallet.weightedLiqThresholdSum cfg rest with
      | some pr, some t =>
        some (amount * pr * pool.max_ltv * pool.liquidation_threshold + t)
      | _, _ => none
    | none => Wallet.weightedLiqThresholdSum cfg rest

/-- The value of `Wallet.health_factor` / `Wallet.health_factor_after`:
either `float('inf')` or a finite rational. -/
inductive HFVal where
  | inf : HFVal
  | val : ℚ → HFVal
deriving DecidableEq, Repr

/-- Ordering used to compare health factors (`inf` is the top element). -/
def HFVal.le : HFVal → HFVal → Prop
  | _, .inf => True
  | .inf, .val _ => False
  | .val a, .val b => a ≤ b

instance : DecidableRel HFVal.le := by
  intro a b
  cases a <;> cases b <;> unfold HFVal.le <;> infer_instance

/-- The comparison `hf_after > 1` performed by `withdraw`/`borrow`
(`float('inf') > 1` is true in Python). -/
def HFVal.gtOne : HFVal → Bool
  | .inf => true
  | .val q => 1 < q

/-- `Wallet.health_factor`: computes `total_collateral_usd` (may fail),
then `total_borrowed_usd` (may fail), returns `inf` when the borrow total
is zero, otherwise
`(total_collateral * weighted_avg_liquidation_threshold) / total_borrowed`
with `weighted_avg_liquidation_threshold = weighted_sum / total_collateral`
if `total_collateral > 0` else `0`. -/
def Wallet.health_factor (cfg : Config) (balances : List (String × ℚ)) : Option HFVal :=
  match Wallet.total_collateral_usd cfg balances with
  | none => none
  | some total_collateral =>
    match Wallet.total_borrowed_usd cfg balances with
    | none => none
    | some total_borrowed =>
      if total_borrowed = 0 then some .inf
      else
        match Wallet.weightedLiqThresholdSum cfg balances with
        | none => none
        | some wsum =>
          let weighted_avg := if 0 < total_collateral then wsum / total_collateral else 0
          some (.val (total_collateral * weighted_avg / total_borrowed))

/-- The single pass of `Wallet.health_factor_after` over `self.balances`,
returning `(total_collateral, weighted_liq_threshold_sum, total_borrowed)`.
`aToken` entries add `(amount + collateral_change.get(token, 0)) * price *
max_ltv` to the collateral and that value times `liquidation_threshold` to
the weighted sum; `vToken` entries add
`(amount + debt_change.get(token, 0)) * price` to the borrow total. -/
def Wallet.hfaScan (cfg : Config) (cch dch : List (String × ℚ)) :
    List (String × ℚ) → Option (ℚ × ℚ × ℚ)
  | [] => some (0, 0, 0)
  | (s, amount) :: rest =>
    match lookupAPool cfg s with
    | some pool =>
      match priceOf cfg pool.underlying_token, Wallet.hfaScan cfg cch dch rest with
      | some pr, some (c, w, b) =>
        let collateral_value := (amount + dgetD cch s 0) * pr * pool.max_ltv
        some (collateral_value + c,
              collateral_value * pool.liquidation_threshold + w, b)
      | _, _ => none
    | none =>
      match lookupVPool cfg s with
      | some pool =>
        match priceOf cfg pool.underlying_token, Wallet.hfaScan cfg cch dch rest with
        | some pr, some (c, w, b) =>
          some (c, w, (amount + dgetD dch s 0) * pr + b)
        | _, _ => none
      | none => Wallet.hfaScan cfg cch dch rest

/-- The second loop of `Wallet.health_factor_after`: debt positions in
`debt_change` whose token is not yet in `self.balances` contribute
`delta * pool.underlying_token.price` (the `token.pool` attribute exists
for both claim-token kinds and for nothing else, so a plain token here is a
Python `AttributeError`, i.e. failure). -/
def Wallet.hfaNewDebt (cfg : Config) (balKeys : List String) :
    List (String × ℚ) → Option ℚ
  | [] => some 0
  | (s, delta) :: rest =>
    if s ∈ balKeys then Wallet.hfaNewDebt cfg balKeys rest
    else
      match (lookupAPool cfg s).or (lookupVPool cfg s) with
      | some pool =>
        match priceOf cfg pool.underlying_token, Wallet.hfaNewDebt cfg balKeys rest with
        | some pr, some t => some (delta * pr + t)
        | _, _ => none
      | none => none

/-- `Wallet.health_factor_after(collateral_change, debt_change)`: the pure
projection of the health factor with the deltas applied. -/
def Wallet.health_factor_after (cfg : Config) (balances cch dch : List (String × ℚ)) :
    Option HFVal :=
  match Wallet.hfaScan cfg cch dch balances with
  | none => none
  | some (total_collateral, wsum, b0) =>
    match Wallet.hfaNewDebt cfg (balances.map Prod.fst) dch with
    | none => none
    | some bnew =>
      let total_borrowed := b0 + bnew
      if total_borrowed = 0 then some .inf
      else
        let weighted_avg := if 0 < total_collateral then wsum / total_collateral else 0
        some (.val (total_collateral * weighted_avg / total_borrowed))

/-! ## Mutable state and operations

`St` gathers every mutable field of the Python objects: each token's
`total_supply`, each pool's `underlying_reserves` (keyed by the pool's
underlying symbol) and each wallet's `balances` dict (keyed by wallet name).
An operation that can `assert` returns `Except St St`; `.error s` carries
the state at the moment the `AssertionError` was raised, so that atomicity
("a failed call leaves the state unchanged") is the statement
`op … = .error s' → s' = s`. -/

structure St where
  total_supply : List (String × ℚ)
  underlying_reserves : List (String × ℚ)
  wallets : List (String × List (String × ℚ))
deriving DecidableEq, Repr

instance {eps alpha : Type} [DecidableEq eps] [DecidableEq alpha] :
    DecidableEq (Except eps alpha) := fun a b =>
  match a, b with
  | .error e, .error e' =>
    if h : e = e' then isTrue (by rw [h])
    else isFalse (by intro hc; injection hc; contradiction)
  | .ok x, .ok y =>
    if h : x = y then isTrue (by rw [h])
    else isFalse (by intro hc; injection hc; contradiction)
  | .error _, .ok _ => isFalse (by intro hc; cases hc)
  | .ok _, .error _ => isFalse (by intro hc; cases hc)

/-- The balances dict of wallet `w` (every `Wallet` is registered in
`env.wallets` at construction; a name with no entry denotes a wallet with
an empty balances dict). -/
def St.bal (s : St) (w : String) : List (String × ℚ) :=
  dgetD s.wallets w []

/-- `Token.mint(wallet, amount)`: requires `amount > 0`, then adds `amount`
to `total_supply` and to the wallet's balance for this token. -/
def Token.mint (sym w : String) (amount : ℚ) (s : St) : Except St St :=
  if 0 < amount then
    let wbal := s.bal w
    let wallet_balance := dgetD wbal sym 0
    .ok { s with
      total_supply := dset s.total_supply sym (dgetD s.total_supply sym 0 + amount),
      wallets := dset s.wallets w (dset wbal sym (wallet_balance + amount)) }
  else .error s

/-- `Token.burn(wallet, amount)`: requires `amount > 0` and a wallet
balance of at least `amount`, then subtracts `amount` from both. -/
def Token.burn (sym w : String) (amount : ℚ) (s : St) : Except St St :=
  if 0 < amount then
    let wbal := s.bal w
    let wallet_balance := dgetD wbal sym 0
    if amount ≤ wallet_balance then
      .ok { s with
        total_supply := dset s.total_supply sym (dgetD s.total_supply sym 0 - amount),
        wallets := dset s.wallets w (dset wbal sym (wallet_balance - amount)) }
    else .error s
  else .error s

/-- `Token.transfer(sender, receiver, amount)`: positivity plus sender
sufficiency checks, then sender decrement followed by receiver increment
(the receiver balance is re-read after the sender write, exactly as the
Python method does, so a self-transfer is a no-op). -/
def Token.transfer (sym sender receiver : String) (amount : ℚ) (s : St) : Except St St :=
  if 0 < amount then
    let sbal := s.bal sender
    let sender_balance := dgetD sbal sym 0
    if amount ≤ sender_balance then
      let s1 : St :=
        { s with wallets := dset s.wallets sender (dset sbal sym (sender_balance - amount)) }
      let rbal := s1.bal receiver
      .ok { s1 with
        wallets := dset s1.wallets receiver (dset rbal sym (dgetD rbal sym 0 + amount)) }
    else .error s
  else .error s

/-- `LendingPool._transfer(wallet, token, amount, from_wallet)`: moves the
underlying token between the wallet's balance and the pool's reserve.  The
token argument is always `self.underlying_token` at the call sites. -/
def LendingPool.underlyingTransfer (p : LendingPool) (w tok : String) (amount : ℚ)
    (from_wallet : Bool) (s : St) : Except St St :=
  if 0 < amount then
    let pool_balance := dgetD s.underlying_reserves p.underlying_token 0
    let wbal := s.bal w
    let wallet_balance := dgetD wbal tok 0
    if from_wallet then
      if amount ≤ wallet_balance then
        .ok { s with
          wallets := dset s.wallets w (dset wbal tok (wallet_balance - amount)),
          underlying_reserves :=
            dset s.underlying_reserves p.underlying_token (pool_balance + amount) }
      else .error s
    else
      if amount ≤ pool_balance then
        .ok { s with
          underlying_reserves :=
            dset s.underlying_reserves p.underlying_token (pool_balance - amount),
          wallets := dset s.wallets w (dset wbal tok (wallet_balance + amount)) }
      else .error s
  else .error s

/-- `LendingPool.supply`: `_transfer(wallet, underlying, amount,
from_wallet=True)` then `a_token.mint(wallet, amount)`. -/
def LendingPool.supply (p : LendingPool) (w : String) (amount : ℚ) (s : St) :
    Except St St :=
  match p.underlyingTransfer w p.underlying_token amount true s with
  | .error s' => .error s'
  | .ok s1 => Token.mint p.a_token w amount s1

/-- `LendingPool.withdraw`: asserts
`health_factor_after(collateral_change={a_token: -amount}) > 1`, then
`_transfer(..., from_wallet=False)`, then `a_token.burn`.  A `TypeError`
raised inside the health-factor computation (missing price) also aborts the
call before any mutation. -/
def LendingPool.withdraw (cfg : Config) (p : LendingPool) (w : String) (amount : ℚ)
    (s : St) : Except St St :=
  match Wallet.health_factor_after cfg (s.bal w) [(p.a_token, -amount)] [] with
  | none => .error s
  | some hf_after =>
    if hf_after.gtOne then
      match p.underlyingTransfer w p.underlying_token amount false s with
      | .error s' => .error s'
      | .ok s1 => Token.burn p.a_token w amount s1
    else .error s

/-- `LendingPool.borrow`: asserts
`health_factor_after(debt_change={v_token: amount}) > 1`, then
`_transfer(..., from_wallet=False)`, then `v_token.mint`. -/
def LendingPool.borrow (cfg : Config) (p : LendingPool) (w : String) (amount : ℚ)
    (s : St) : Except St St :=
  match Wallet.health_factor_after cfg (s.bal w) [] [(p.v_token, amount)] with
  | none => .error s
  | some hf_after =>
    if hf_after.gtOne then
      match p.underlyingTransfer w p.underlying_token amount false s with
      | .error s' => .error s'
      | .ok s1 => Token.mint p.v_token w amount s1
    else .error s

/-- `LendingPool.repay`: `_transfer(wallet, underlying, amount,
from_wallet=True)` then `v_token.burn(wallet, amount)`. -/
def LendingPool.repay (p : LendingPool) (w : String) (amount : ℚ) (s : St) :
    Except St St :=
  match p.underlyingTransfer w p.underlying_token amount true s with
  | .error s' => .error s'
  | .ok s1 => Token.burn p.v_token w amount s1

/-- `LendingPool.utilisation_rate`: `0` when either claim-token supply is
zero, else `v_token.total_supply / a_token.total_supply`, clamped from
below by `max(0, ·)`. -/
def LendingPool.utilisation_rate (p : LendingPool) (s : St) : ℚ :=
  let r : ℚ :=
    if dgetD s.total_supply p.v_token 0 = 0 ∨ dgetD s.total_supply p.a_token 0 = 0 then 0
    else dgetD s.total_supply p.v_token 0 / dgetD s.total_supply p.a_token 0
  max 0 r

/-! ## Operation sequences -/

/-- One call a driver can make: the three `Token` methods or one of the
four pool transitions (a pool is named by its underlying symbol, the key
of `env.lending_pools`). -/
inductive Op where
  | mint (sym w : String) (amount : ℚ)
  | burn (sym w : String) (amount : ℚ)
  | transfer (sym sender receiver : String) (amount : ℚ)
  | supply (u w : String) (amount : ℚ)
  | withdraw (u w : String) (amount : ℚ)
  | borrow (u w : String) (amount : ℚ)
  | repay (u w : String) (amount : ℚ)
deriving DecidableEq, Repr

/-- Whether an operation is one of the four pool transitions. -/
def Op.isPoolOp : Op → Bool
  | .supply _ _ _ | .withdraw _ _ _ | .borrow _ _ _ | .repay _ _ _ => true
  | _ => false

/-- Execute one operation. -/
def runOp (cfg : Config) (o : Op) (s : St) : Except St St :=
  match o with
  | .mint sym w amount => Token.mint sym w amount s
  | .burn sym w amount => Token.burn sym w amount s
  | .transfer sym sender receiver amount => Token.transfer sym sender receiver amount s
  | .supply u w amount =>
    match cfg.pools.find? (fun p => p.underlying_token = u) with
    | some p => p.supply w amount s
    | none => .error s
  | .withdraw u w amount =>
    match cfg.pools.find? (fun p => p.underlying_token = u) with
    | some p => LendingPool.withdraw cfg p w amount s
    | none => .error s
  | .borrow u w amount =>
    match cfg.pools.find? (fun p => p.underlying_token = u) with
    | some p => LendingPool.borrow cfg p w amount s
    | none => .error s
  | .repay u w amount =>
    match cfg.pools.find? (fun p => p.underlying_token = u) with
    | some p => p.repay w amount s
    | none => .error s

/-- Execute a sequence of operations, requiring every one to succeed. -/
def runOk (cfg : Config) : List Op → St → Option St
  | [], s => some s
  | o :: rest, s =>
    match runOp cfg o s with
    | .ok s1 => runOk cfg rest s1
    | .error _ => none

/-- Σ over all wallets of the wallet's balance of token `tok`. -/
def sumBal (tok : String) : List (String × List (String × ℚ)) → ℚ
  | [] => 0
  | (_, b) :: rest => dgetD b tok 0 + sumBal tok rest

/-! ## Generic lemmas about the USD aggregates

Each aggregate is a sum `Σ amount · factor(symbol)` over the balance
entries, failing as soon as a needed price is missing.  `usdSum` is the
common shape, `usdSumD` the shape with a per-token delta added to the
amount (the loops of `health_factor_after`). -/

def usdSum (f : String → Option ℚ) : List (String × ℚ) → Option ℚ
  | [] => some 0
  | (s, amount) :: rest =>
    match f s, usdSum f rest with
    | some c, some t => some (amount * c + t)
    | _, _ => none

def usdSumD (f : String → Option ℚ) (ch : List (String × ℚ)) :
    List (String × ℚ) → Option ℚ
  | [] => some 0
  | (s, amount) :: rest =>
    match f s, usdSumD f ch rest with
    | some c, some t => some ((amount + dgetD ch s 0) * c + t)
    | _, _ => none

/-- USD factor of one unit in `total_supplied_usd`: the underlying price
for supply-claim tokens, `0` for everything else. -/
def suppliedFactor (cfg : Config) (s : String) : Option ℚ :=
  match lookupAPool cfg s with
  | some pool => priceOf cfg pool.underlying_token
  | none => some 0

/-- USD factor in `total_collateral_usd`: `price * max_ltv` for
supply-claim tokens. -/
def collateralFactor (cfg : Config) (s : String) : Option ℚ :=
  match lookupAPool cfg s with
  | some pool => (priceOf cfg pool.underlying_token).map (· * pool.max_ltv)
  | none => some 0

/-- USD factor in the weighted liquidation-threshold sum:
`price * max_ltv * liquidation_threshold` for supply-claim tokens. -/
def weightFactor (cfg : Config) (s : String) : Option ℚ :=
  match lookupAPool cfg s with
  | some pool =>
    (priceOf cfg pool.underlying_token).map (· * pool.max_ltv * pool.liquidation_threshold)
  | none => some 0

/-- USD factor in `total_borrowed_usd`: the underlying price for debt-claim
tokens. -/
def borrowedFactor (cfg : Config) (s : String) : Option ℚ :=
  match lookupVPool cfg s with
  | some pool => priceOf cfg pool.underlying_token
  | none => some 0

/-- USD factor of the borrow component of the `health_factor_after` scan:
the scan's `elif` only reaches the debt branch when the token is not a
supply-claim token. -/
def borrowedScanFactor (cfg : Config) (s : String) : Option ℚ :=
  match lookupAPool cfg s with
  | some _ => some 0
  | none =>
    match lookupVPool cfg s with
    | some pool => priceOf cfg pool.underlying_token
    | none => some 0

theorem total_supplied_usd_eq (cfg : Config) (bal : List (String × ℚ)) :
    Wallet.total_supplied_usd cfg bal = usdSum (suppliedFactor cfg) bal := by
  induction bal with
  | nil => rfl
  | cons e rest ih =>
    obtain ⟨s, amount⟩ := e
    simp only [Wallet.total_supplied_usd, usdSum, suppliedFactor]
    cases h : lookupAPool cfg s with
    | none =>
      simp only [ih]
      cases usdSum (suppliedFactor cfg) rest <;> simp
    | some pool =>
      cases hp : priceOf cfg pool.underlying_token <;>
        cases h2 : usdSum (suppliedFactor cfg) rest <;> simp [ih, h2, hp]

theorem total_collateral_usd_eq (cfg : Config) (bal : List (String × ℚ)) :
    Wallet.total_collateral_usd cfg bal = usdSum (collateralFactor cfg) bal := by
  induction bal with
  | nil => rfl
  | cons e rest ih =>
    obtain ⟨s, amount⟩ := e
    simp only [Wallet.total_collateral_usd, usdSum, collateralFactor]
    cases h : lookupAPool cfg s with
    | none =>
      simp only [ih]
      cases usdSum (collateralFactor cfg) rest <;> simp
    | some pool =>
      cases hp : priceOf cfg pool.underlying_token <;>
        cases h2 : usdSum (collateralFactor cfg) rest <;>
        simp [ih, h2, hp, Option.map, mul_assoc]

theorem weightedLiqThresholdSum_eq (cfg : Config) (bal : List (String × ℚ)) :
    Wallet.weightedLiqThresholdSum cfg bal = usdSum (weightFactor cfg) bal := by
  induction bal with
  | nil => rfl
  | cons e rest ih =>
    obtain ⟨s, amount⟩ := e
    simp only [Wallet.weightedLiqThresholdSum, usdSum, weightFactor]
    cases h : lookupAPool cfg s with
    | none =>
      simp only [ih]
      cases usdSum (weightFactor cfg) rest <;> simp
    | some pool =>
      cases hp : priceOf cfg pool.underlying_token <;>
        cases h2 : usdSum (weightFactor cfg) rest <;>
        simp [ih, h2, hp, Option.map, mul_assoc]

theorem total_borrowed_usd_eq (cfg : Config) (bal : List (String × ℚ)) :
    Wallet.total_borrowed_usd cfg bal = usdSum (borrowedFactor cfg) bal := by
  induction bal with
  | nil => rfl
  | cons e rest ih =>
    obtain ⟨s, amount⟩ := e
    simp only [Wallet.total_borrowed_usd, usdSum, borrowedFactor]
    cases h : lookupVPool cfg s with
    | none =>
      simp only [ih]
      cases usdSum (borrowedFactor cfg) rest <;> simp
    | some pool =>
      cases hp : priceOf cfg pool.underlying_token <;>
        cases h2 : usdSum (borrowedFactor cfg) rest <;> simp [ih, h2, hp]

/-- On configurations with unique token symbols, the `borrowedFactor` and
the scan's borrow factor agree. -/
theorem borrowedScanFactor_eq_borrowedFactor {cfg : Config} (hwf : cfg.WF)
    (s : String) : borrowedScanFactor cfg s = borrowedFactor cfg s := by
  unfold borrowedScanFactor borrowedFactor
  cases ha : lookupAPool cfg s with
  | none => rfl
  | some p =>
    rcases hwf.aPool_vPool_disjoint s with h | h
    · rw [ha] at h; cases h
    · rw [h]

theorem usdSum_isSome_iff (f : String → Option ℚ) (l : List (String × ℚ)) :
    (usdSum f l).isSome ↔ ∀ e ∈ l, (f e.1).isSome := by
  induction l with
  | nil => simp [usdSum]
  | cons e rest ih =>
    obtain ⟨s, amount⟩ := e
    rw [List.forall_mem_cons]
    cases h : f s with
    | none =>
      have hz : usdSum f ((s, amount) :: rest) = none := by simp [usdSum, h]
      rw [hz]
      refine iff_of_false (by simp) ?_
      intro hc
      exact absurd hc.1 (by simp)
    | some c =>
      cases h2 : usdSum f rest with
      | none =>
        have hz : usdSum f ((s, amount) :: rest) = none := by simp [usdSum, h, h2]
        rw [hz]
        refine iff_of_false (by simp) ?_
        intro hc
        have h4 := ih.mpr hc.2
        rw [h2] at h4
        exact absurd h4 (by simp)
      | some t =>
        have hs : usdSum f ((s, amount) :: rest) = some (amount * c + t) := by
          simp [usdSum, h, h2]
        have h4 : ∀ e ∈ rest, (f e.1).isSome := ih.mp (by rw [h2]; simp)
        rw [hs]
        exact iff_of_true (by simp) ⟨by simp, h4⟩

theorem usdSum_none_of_mem {f : String → Option ℚ} {l : List (String × ℚ)}
    {s : String} {a : ℚ} (hmem : (s, a) ∈ l) (hf : f s = none) :
    usdSum f l = none := by
  cases h : usdSum f l with
  | none => rfl
  | some t =>
    have : (f (s, a).1).isSome := (usdSum_isSome_iff f l).mp (by rw [h]; simp) _ hmem
    rw [hf] at this; simp at this

/-- Updating key `k` (factor `c`) shifts the sum by `(v - old value) * c`,
provided the balance keys are unique (as they are in a Python dict). -/
theorem usdSum_dset {f : String → Option ℚ} {l : List (String × ℚ)}
    (hnd : (l.map Prod.fst).Nodup) {k : String} {c : ℚ} (hf : f k = some c) (v : ℚ) :
    usdSum f (dset l k v) =
      (usdSum f l).map (fun t => t + (v - dgetD l k 0) * c) := by
  induction l with
  | nil => simp [dset, usdSum, hf, dgetD]
  | cons e rest ih =>
    obtain ⟨s, amount⟩ := e
    simp only [List.map_cons, List.nodup_cons] at hnd
    by_cases hk : s = k
    · subst hk
      simp only [dset, if_pos rfl, usdSum, hf, dgetD, dget_cons, if_pos rfl,
        Option.getD_some]
      have hrest : dget rest s = none :=
        dget_eq_none_of_not_mem (by
          intro hc; exact hnd.1 hc)
      cases h2 : usdSum f rest with
      | none => simp
      | some t => simp; ring
    · simp only [dset, if_neg hk, usdSum, dgetD, dget_cons, if_neg hk]
      cases hfs : f s with
      | none => simp
      | some cs =>
        rw [ih hnd.2]
        cases h2 : usdSum f rest with
        | none => simp
        | some t => simp [dgetD]; ring

/-- Updating a key whose factor is `0` (a plain token) leaves every
aggregate unchanged. -/
theorem usdSum_dset_zero {f : String → Option ℚ} {l : List (String × ℚ)}
    (hnd : (l.map Prod.fst).Nodup) {k : String} (hf : f k = some 0) (v : ℚ) :
    usdSum f (dset l k v) = usdSum f l := by
  rw [usdSum_dset hnd hf v]
  cases usdSum f l <;> simp

theorem usdSum_nonneg {f : String → Option ℚ} {l : List (String × ℚ)}
    (hl : ∀ e ∈ l, 0 ≤ e.2) (hfac : ∀ s c, f s = some c → 0 ≤ c)
    {t : ℚ} (h : usdSum f l = some t) : 0 ≤ t := by
  induction l generalizing t with
  | nil =>
    simp only [usdSum, Option.some.injEq] at h
    rw [← h]
  | cons e rest ih =>
    obtain ⟨s, amount⟩ := e
    simp only [usdSum] at h
    cases hfs : f s with
    | none => rw [hfs] at h; simp at h
    | some c =>
      rw [hfs] at h
      cases h2 : usdSum f rest with
      | none => rw [h2] at h; simp at h
      | some tr =>
        rw [h2] at h
        simp only [Option.some.injEq] at h
        have h1 : 0 ≤ amount * c :=
          mul_nonneg (hl (s, amount) (List.mem_cons_self _ _)) (hfac s c hfs)
        have h3 : 0 ≤ tr := ih (fun e he => hl e (List.mem_cons_of_mem _ he)) h2
        rw [← h]; positivity

/-- With non-negative amounts and factors, the sum dominates each single
term. -/
theorem usdSum_term_le {f : String → Option ℚ} {l : List (String × ℚ)}
    (hl : ∀ e ∈ l, 0 ≤ e.2) (hfac : ∀ s c, f s = some c → 0 ≤ c)
    {k : String} {a c : ℚ} (hmem : (k, a) ∈ l) (hf : f k = some c)
    {t : ℚ} (h : usdSum f l = some t) : a * c ≤ t := by
  induction l generalizing t with
  | nil => simp at hmem
  | cons e rest ih =>
    obtain ⟨s, amount⟩ := e
    simp only [usdSum] at h
    cases hfs : f s with
    | none => rw [hfs] at h; simp at h
    | some cs =>
      rw [hfs] at h
      cases h2 : usdSum f rest with
      | none => rw [h2] at h; simp at h
      | some tr =>
        rw [h2] at h
        simp only [Option.some.injEq] at h
        rcases List.mem_cons.mp hmem with he | he
        · rw [Prod.mk.injEq] at he
          obtain ⟨hs, ha⟩ := he
          subst hs; subst ha
          injection (hfs.symm.trans hf) with hcs
          have htr : 0 ≤ tr :=
            usdSum_nonneg (fun e he => hl e (List.mem_cons_of_mem _ he)) hfac h2
          rw [← h, ← hcs]
          linarith
        · have h5 := ih (fun e he => hl e (List.mem_cons_of_mem _ he)) he h2
          have hterm : 0 ≤ amount * cs :=
            mul_nonneg (hl (s, amount) (List.mem_cons_self _ _)) (hfac s cs hfs)
          rw [← h]
          linarith

/-- With deltas that vanish on every key of the list, the delta-sum is the
plain sum. -/
theorem usdSumD_eq_usdSum {f : String → Option ℚ} {ch : List (String × ℚ)}
    {l : List (String × ℚ)} (h : ∀ s ∈ l.map Prod.fst, dgetD ch s 0 = 0) :
    usdSumD f ch l = usdSum f l := by
  induction l with
  | nil => rfl
  | cons e rest ih =>
    obtain ⟨s, amount⟩ := e
    simp only [usdSumD, usdSum]
    rw [h s (by simp), ih (fun s hs => h s (List.mem_cons_of_mem _ hs))]
    cases f s <;> cases usdSum f rest <;> simp

/-- The single pass of `health_factor_after` over the balances computes the
three delta-adjusted aggregates (failing whenever any of the three does). -/
theorem hfaScan_eq (cfg : Config) (cch dch bal : List (String × ℚ)) :
    Wallet.hfaScan cfg cch dch bal =
      (usdSumD (collateralFactor cfg) cch bal).bind (fun c =>
        (usdSumD (weightFactor cfg) cch bal).bind (fun w =>
          (usdSumD (borrowedScanFactor cfg) dch bal).map (fun b => (c, w, b)))) := by
  induction bal with
  | nil => rfl
  | cons e rest ih =>
    obtain ⟨s, amount⟩ := e
    simp only [Wallet.hfaScan, usdSumD, collateralFactor, weightFactor,
      borrowedScanFactor]
    rw [ih]
    cases ha : lookupAPool cfg s with
    | some pool =>
      cases hp : priceOf cfg pool.underlying_token with
      | none =>
        cases hc : usdSumD (collateralFactor cfg) cch rest <;>
          cases hw : usdSumD (weightFactor cfg) cch rest <;>
          cases hb : usdSumD (borrowedScanFactor cfg) dch rest <;>
          simp [Option.bind, ha, hp]
      | some pr =>
        cases hc : usdSumD (collateralFactor cfg) cch rest <;>
          cases hw : usdSumD (weightFactor cfg) cch rest <;>
          cases hb : usdSumD (borrowedScanFactor cfg) dch rest <;>
          simp [Option.bind, ha, hp, mul_assoc]
    | none =>
      cases hv : lookupVPool cfg s with
      | some pool =>
        cases hp : priceOf cfg pool.underlying_token with
        | none =>
          cases hc : usdSumD (collateralFactor cfg) cch rest <;>
            cases hw : usdSumD (weightFactor cfg) cch rest <;>
            cases hb : usdSumD (borrowedScanFactor cfg) dch rest <;>
            simp [Option.bind, ha, hv, hp]
        | some pr =>
          cases hc : usdSumD (collateralFactor cfg) cch rest <;>
            cases hw : usdSumD (weightFactor cfg) cch rest <;>
            cases hb : usdSumD (borrowedScanFactor cfg) dch rest <;>
            simp [Option.bind, ha, hv, hp, mul_assoc]
      | none =>
        cases hc : usdSumD (collateralFactor cfg) cch rest <;>
          cases hw : usdSumD (weightFactor cfg) cch rest <;>
          cases hb : usdSumD (borrowedScanFactor cfg) dch rest <;>
          simp [Option.bind, ha, hv, mul_assoc]

theorem lookupAPool_spec {cfg : Config} {s : String} {p : LendingPool}
    (h : lookupAPool cfg s = some p) : p ∈ cfg.pools ∧ p.a_token = s :=
  ⟨List.mem_of_find?_eq_some h, by simpa using List.find?_some h⟩

theorem lookupVPool_spec {cfg : Config} {s : String} {p : LendingPool}
    (h : lookupVPool cfg s = some p) : p ∈ cfg.pools ∧ p.v_token = s :=
  ⟨List.mem_of_find?_eq_some h, by simpa using List.find?_some h⟩

/-- All registered prices are positive (the spec's oracle contract:
`set_price(symbol, value: float>0)`). -/
def PricesPos (cfg : Config) : Prop := ∀ e ∈ cfg.prices, (0 : ℚ) < e.2

/-- The risk parameters relevant to the health factor are non-negative (the
spec requires them in `[0,1]`). -/
def ParamsNonneg (cfg : Config) : Prop :=
  ∀ p ∈ cfg.pools, 0 ≤ p.max_ltv ∧ 0 ≤ p.liquidation_threshold

instance (cfg : Config) : Decidable (PricesPos cfg) := by
  unfold PricesPos; infer_instance

instance (cfg : Config) : Decidable (ParamsNonneg cfg) := by
  unfold ParamsNonneg; infer_instance

theorem priceOf_pos {cfg : Config} (hp : PricesPos cfg) {s : String} {q : ℚ}
    (h : priceOf cfg s = some q) : 0 < q :=
  hp (s, q) (dget_mem h)

theorem collateralFactor_nonneg {cfg : Config} (hp : PricesPos cfg)
    (hpar : ParamsNonneg cfg) (s : String) {c : ℚ}
    (h : collateralFactor cfg s = some c) : 0 ≤ c := by
  cases ha : lookupAPool cfg s with
  | none =>
    have hcf : collateralFactor cfg s = some 0 := by
      unfold collateralFactor; rw [ha]
    rw [hcf] at h
    injection h with h
    exact le_of_eq h
  | some pool =>
    have hcf : collateralFactor cfg s =
        (priceOf cfg pool.underlying_token).map (· * pool.max_ltv) := by
      unfold collateralFactor; rw [ha]
    rw [hcf] at h
    cases hq : priceOf cfg pool.underlying_token with
    | none => rw [hq] at h; simp at h
    | some q =>
      rw [hq] at h
      simp only [Option.map_some', Option.some.injEq] at h
      rw [← h]
      exact mul_nonneg (le_of_lt (priceOf_pos hp hq))
        (hpar pool (lookupAPool_spec ha).1).1

theorem weightFactor_nonneg {cfg : Config} (hp : PricesPos cfg)
    (hpar : ParamsNonneg cfg) (s : String) {c : ℚ}
    (h : weightFactor cfg s = some c) : 0 ≤ c := by
  cases ha : lookupAPool cfg s with
  | none =>
    have hcf : weightFactor cfg s = some 0 := by
      unfold weightFactor; rw [ha]
    rw [hcf] at h
    injection h with h
    exact le_of_eq h
  | some pool =>
    have hcf : weightFactor cfg s = (priceOf cfg pool.underlying_token).map
        (· * pool.max_ltv * pool.liquidation_threshold) := by
      unfold weightFactor; rw [ha]
    rw [hcf] at h
    cases hq : priceOf cfg pool.underlying_token with
    | none => rw [hq] at h; simp at h
    | some q =>
      rw [hq] at h
      simp only [Option.map_some', Option.some.injEq] at h
      rw [← h]
      exact mul_nonneg (mul_nonneg (le_of_lt (priceOf_pos hp hq))
        (hpar pool (lookupAPool_spec ha).1).1) (hpar pool (lookupAPool_spec ha).1).2

theorem borrowedFactor_nonneg {cfg : Config} (hp : PricesPos cfg) (s : String) {c : ℚ}
    (h : borrowedFactor cfg s = some c) : 0 ≤ c := by
  cases hv : lookupVPool cfg s with
  | none =>
    have hcf : borrowedFactor cfg s = some 0 := by
      unfold borrowedFactor; rw [hv]
    rw [hcf] at h
    injection h with h
    exact le_of_eq h
  | some pool =>
    have hcf : borrowedFactor cfg s = priceOf cfg pool.underlying_token := by
      unfold borrowedFactor; rw [hv]
    rw [hcf] at h
    exact le_of_lt (priceOf_pos hp h)

/-- Per symbol, the weighted-threshold factor is the collateral factor times
that pool's liquidation threshold. -/
theorem weightFactor_eq_mul {cfg : Config} (s : String) :
    ∃ thr : ℚ, weightFactor cfg s = (collateralFactor cfg s).map (· * thr) := by
  unfold weightFactor collateralFactor
  cases ha : lookupAPool cfg s with
  | none => exact ⟨0, by simp⟩
  | some pool =>
    refine ⟨pool.liquidation_threshold, ?_⟩
    cases priceOf cfg pool.underlying_token <;> simp [mul_assoc]

/-- If the collateral total is zero and every term is non-negative, the
weighted-threshold total is zero as well (each collateral term vanishes). -/
theorem weight_zero_of_collateral_zero {cfg : Config} (hp : PricesPos cfg)
    (hpar : ParamsNonneg cfg) {bal : List (String × ℚ)}
    (hbal : ∀ e ∈ bal, 0 ≤ e.2)
    (hC : usdSum (collateralFactor cfg) bal = some 0) {w : ℚ}
    (hW : usdSum (weightFactor cfg) bal = some w) : w = 0 := by
  induction bal generalizing w with
  | nil =>
    simp only [usdSum, Option.some.injEq] at hW
    exact hW.symm
  | cons e rest ih =>
    obtain ⟨s, amount⟩ := e
    simp only [usdSum] at hC hW
    cases hcf : collateralFactor cfg s with
    | none => rw [hcf] at hC; simp at hC
    | some cf =>
      rw [hcf] at hC
      cases hCr : usdSum (collateralFactor cfg) rest with
      | none => rw [hCr] at hC; simp at hC
      | some cr =>
        rw [hCr] at hC
        simp only [Option.some.injEq] at hC
        have hterm : 0 ≤ amount * cf :=
          mul_nonneg (hbal (s, amount) (List.mem_cons_self _ _))
            (collateralFactor_nonneg hp hpar s hcf)
        have hcr0 : 0 ≤ cr :=
          usdSum_nonneg (fun x hx => hbal x (List.mem_cons_of_mem _ hx))
            (fun s c h => collateralFactor_nonneg hp hpar s h) hCr
        have hterm0 : amount * cf = 0 := by linarith
        have hcrz : cr = 0 := by linarith
        obtain ⟨thr, hthr⟩ := @weightFactor_eq_mul cfg s
        rw [hthr, hcf] at hW
        simp only [Option.map_some'] at hW
        cases hWr : usdSum (weightFactor cfg) rest with
        | none => rw [hWr] at hW; simp at hW
        | some wr =>
          rw [hWr] at hW
          simp only [Option.some.injEq] at hW
          have hwr : wr = 0 := ih (fun x hx => hbal x (List.mem_cons_of_mem _ hx))
            (by rw [hCr, hcrz]) hWr
          rw [← hW, hwr]
          calc amount * (cf * thr) + 0 = amount * cf * thr := by ring
          _ = 0 := by rw [hterm0]; ring

/-- `Wallet.health_factor` expressed through the three aggregates. -/
theorem health_factor_eq (cfg : Config) (bal : List (String × ℚ)) {c b w : ℚ}
    (hC : usdSum (collateralFactor cfg) bal = some c)
    (hB : usdSum (borrowedFactor cfg) bal = some b)
    (hW : usdSum (weightFactor cfg) bal = some w) :
    Wallet.health_factor cfg bal =
      if b = 0 then some .inf
      else some (.val (c * (if 0 < c then w / c else 0) / b)) := by
  unfold Wallet.health_factor
  rw [total_collateral_usd_eq, total_borrowed_usd_eq, weightedLiqThresholdSum_eq,
    hC, hB, hW]

/-- Under non-negative balances, prices and parameters the health factor
collapses to `weighted_sum / total_borrowed` (or `inf` for zero debt). -/
theorem health_factor_normal (cfg : Config) (bal : List (String × ℚ))
    (hp : PricesPos cfg) (hpar : ParamsNonneg cfg)
    (hbal : ∀ e ∈ bal, 0 ≤ e.2) {c b w : ℚ}
    (hC : usdSum (collateralFactor cfg) bal = some c)
    (hB : usdSum (borrowedFactor cfg) bal = some b)
    (hW : usdSum (weightFactor cfg) bal = some w) :
    Wallet.health_factor cfg bal =
      if b = 0 then some .inf else some (.val (w / b)) := by
  rw [health_factor_eq cfg bal hC hB hW]
  by_cases hb : b = 0
  · simp [hb]
  · simp only [if_neg hb]
    by_cases hc : 0 < c
    · rw [if_pos hc]
      have : c * (w / c) = w := by field_simp
      rw [this]
    · rw [if_neg hc]
      have hc0 : c = 0 := le_antisymm (not_lt.mp hc)
        (usdSum_nonneg hbal (fun s c h => collateralFactor_nonneg hp hpar s h) hC)
      have hw0 : w = 0 := weight_zero_of_collateral_zero hp hpar hbal (hc0 ▸ hC) hW
      rw [hc0, hw0]
      simp

/-- `Wallet.health_factor_after` expressed through the delta aggregates. -/
theorem health_factor_after_eq (cfg : Config)
    (bal cch dch : List (String × ℚ)) {c w b nb : ℚ}
    (hC : usdSumD (collateralFactor cfg) cch bal = some c)
    (hW : usdSumD (weightFactor cfg) cch bal = some w)
    (hB : usdSumD (borrowedScanFactor cfg) dch bal = some b)
    (hN : Wallet.hfaNewDebt cfg (bal.map Prod.fst) dch = some nb) :
    Wallet.health_factor_after cfg bal cch dch =
      if b + nb = 0 then some .inf
      else some (.val (c * (if 0 < c then w / c else 0) / (b + nb))) := by
  unfold Wallet.health_factor_after
  rw [hfaScan_eq, hC, hW, hB, hN]
  simp [Option.bind]

theorem hfaNewDebt_nil (cfg : Config) (keys : List String) :
    Wallet.hfaNewDebt cfg keys [] = some 0 := rfl

theorem hfaNewDebt_single_mem (cfg : Config) {keys : List String} {s : String}
    (h : s ∈ keys) (x : ℚ) : Wallet.hfaNewDebt cfg keys [(s, x)] = some 0 := by
  simp [Wallet.hfaNewDebt, h]

theorem hfaNewDebt_single_not_mem (cfg : Config) {keys : List String} {s : String}
    (h : s ∉ keys) {p : LendingPool} (ha : lookupAPool cfg s = none)
    (hv : lookupVPool cfg s = some p) {pr : ℚ}
    (hpr : priceOf cfg p.underlying_token = some pr) (x : ℚ) :
    Wallet.hfaNewDebt cfg keys [(s, x)] = some (x * pr) := by
  simp [Wallet.hfaNewDebt, h, ha, hv, Option.or, hpr]

theorem usdSumD_single_not_mem {f : String → Option ℚ} {l : List (String × ℚ)}
    {k : String} (h : k ∉ l.map Prod.fst) (x : ℚ) :
    usdSumD f [(k, x)] l = usdSum f l := by
  apply usdSumD_eq_usdSum
  intro s hs
  have : s ≠ k := fun hc => h (hc ▸ hs)
  simp [dgetD, dget, Ne.symm this]

theorem usdSumD_single_mem {f : String → Option ℚ} {l : List (String × ℚ)}
    (hnd : (l.map Prod.fst).Nodup) {k : String} (hk : k ∈ l.map Prod.fst)
    {c : ℚ} (hf : f k = some c) (x : ℚ) :
    usdSumD f [(k, x)] l = (usdSum f l).map (fun t => t + x * c) := by
  induction l with
  | nil => simp at hk
  | cons e rest ih =>
    obtain ⟨s, amount⟩ := e
    simp only [List.map_cons, List.nodup_cons] at hnd
    simp only [usdSumD, usdSum]
    rcases List.mem_cons.mp hk with hks | hks
    · subst hks
      rw [hf]
      have hrest : usdSumD f [(k, x)] rest = usdSum f rest :=
        usdSumD_single_not_mem hnd.1 x
      rw [hrest]
      have hd : dgetD [(k, x)] k 0 = x := by simp [dgetD, dget]
      rw [hd]
      cases usdSum f rest <;> simp
      ring
    · have hs : s ≠ k := by
        intro hc; subst hc; exact hnd.1 hks
      have hd : dgetD [(k, x)] s 0 = 0 := by simp [dgetD, dget, Ne.symm hs]
      rw [hd, ih hnd.2 hks]
      cases hfs : f s <;> cases usdSum f rest <;> simp <;> try ring

/-! ## Characterizations of the mutating operations -/

theorem mint_ok_iff {sym w : String} {amount : ℚ} {s s' : St} :
    Token.mint sym w amount s = .ok s' ↔
      0 < amount ∧
      s' = { s with
        total_supply := dset s.total_supply sym (dgetD s.total_supply sym 0 + amount),
        wallets := dset s.wallets w
          (dset (s.bal w) sym (dgetD (s.bal w) sym 0 + amount)) } := by
  unfold Token.mint
  split_ifs with h
  · simp [h, eq_comm]
  · simp [h]

theorem mint_error_iff {sym w : String} {amount : ℚ} {s s' : St} :
    Token.mint sym w amount s = .error s' ↔ ¬ 0 < amount ∧ s' = s := by
  unfold Token.mint
  split_ifs with h
  · simp [h]
  · simp [h, eq_comm]

theorem burn_ok_iff {sym w : String} {amount : ℚ} {s s' : St} :
    Token.burn sym w amount s = .ok s' ↔
      0 < amount ∧ amount ≤ dgetD (s.bal w) sym 0 ∧
      s' = { s with
        total_supply := dset s.total_supply sym (dgetD s.total_supply sym 0 - amount),
        wallets := dset s.wallets w
          (dset (s.bal w) sym (dgetD (s.bal w) sym 0 - amount)) } := by
  unfold Token.burn
  by_cases h1 : 0 < amount
  · by_cases h2 : amount ≤ dgetD (s.bal w) sym 0
    · simp [h1, h2, eq_comm]
    · simp [h1, h2]
  · simp [h1]

theorem burn_error_iff {sym w : String} {amount : ℚ} {s s' : St} :
    Token.burn sym w amount s = .error s' ↔
      ¬ (0 < amount ∧ amount ≤ dgetD (s.bal w) sym 0) ∧ s' = s := by
  unfold Token.burn
  by_cases h1 : 0 < amount
  · by_cases h2 : amount ≤ dgetD (s.bal w) sym 0
    · simp [h1, h2]
    · simp [h1, h2, eq_comm]
  · simp [h1, eq_comm]

theorem transfer_ok_iff {sym sender receiver : String} {amount : ℚ} {s s' : St} :
    Token.transfer sym sender receiver amount s = .ok s' ↔
      0 < amount ∧ amount ≤ dgetD (s.bal sender) sym 0 ∧
      s' = (
        let s1 : St := { s with
          wallets := dset s.wallets sender
            (dset (s.bal sender) sym (dgetD (s.bal sender) sym 0 - amount)) };
        { s1 with
          wallets := dset s1.wallets receiver
            (dset (s1.bal receiver) sym (dgetD (s1.bal receiver) sym 0 + amount)) }) := by
  unfold Token.transfer
  by_cases h1 : 0 < amount
  · by_cases h2 : amount ≤ dgetD (s.bal sender) sym 0
    · simp [h1, h2, eq_comm]
    · simp [h1, h2]
  · simp [h1]

theorem underlyingTransfer_true_ok_iff {p : LendingPool} {w tok : String}
    {amount : ℚ} {s s' : St} :
    p.underlyingTransfer w tok amount true s = .ok s' ↔
      0 < amount ∧ amount ≤ dgetD (s.bal w) tok 0 ∧
      s' = { s with
        wallets := dset s.wallets w
          (dset (s.bal w) tok (dgetD (s.bal w) tok 0 - amount)),
        underlying_reserves := dset s.underlying_reserves p.underlying_token
          (dgetD s.underlying_reserves p.underlying_token 0 + amount) } := by
  unfold LendingPool.underlyingTransfer
  by_cases h1 : 0 < amount
  · by_cases h2 : amount ≤ dgetD (s.bal w) tok 0
    · simp [h1, h2, eq_comm]
    · simp [h1, h2]
  · simp [h1]

theorem underlyingTransfer_false_ok_iff {p : LendingPool} {w tok : String}
    {amount : ℚ} {s s' : St} :
    p.underlyingTransfer w tok amount false s = .ok s' ↔
      0 < amount ∧ amount ≤ dgetD s.underlying_reserves p.underlying_token 0 ∧
      s' = { s with
        underlying_reserves := dset s.underlying_reserves p.underlying_token
          (dgetD s.underlying_reserves p.underlying_token 0 - amount),
        wallets := dset s.wallets w
          (dset (s.bal w) tok (dgetD (s.bal w) tok 0 + amount)) } := by
  unfold LendingPool.underlyingTransfer
  by_cases h1 : 0 < amount
  · by_cases h2 : amount ≤ dgetD s.underlying_reserves p.underlying_token 0
    · simp [h1, h2, eq_comm]
    · simp [h1, h2]
  · simp [h1]

theorem underlyingTransfer_error_eq {p : LendingPool} {w tok : String}
    {amount : ℚ} {fw : Bool} {s s' : St}
    (h : p.underlyingTransfer w tok amount fw s = .error s') : s' = s := by
  unfold LendingPool.underlyingTransfer at h
  cases fw <;>
    by_cases h1 : 0 < amount <;>
    simp only [h1, if_pos, if_neg, if_true, if_false, Bool.false_eq_true,
      ite_true, ite_false] at h <;>
    first
      | (injection h with h; exact h.symm)
      | (by_cases h2 : amount ≤ dgetD s.underlying_reserves p.underlying_token 0 <;>
          by_cases h3 : amount ≤ dgetD (s.bal w) tok 0 <;>
          simp [h2, h3] at h <;> simp [h])

/-! ## Conservation and pool invariants -/

/-- Structural facts every reachable Python state satisfies: wallet names
and the keys of each balances dict are unique. -/
def StWF (s : St) : Prop :=
  (s.wallets.map Prod.fst).Nodup ∧ ∀ e ∈ s.wallets, (e.2.map Prod.fst).Nodup

instance (s : St) : Decidable (StWF s) := by
  unfold StWF; infer_instance

theorem dgetD_nonneg {b : List (String × ℚ)} (h : ∀ e ∈ b, 0 ≤ e.2) (tok : String) :
    0 ≤ dgetD b tok 0 := by
  unfold dgetD
  cases hg : dget b tok with
  | none => simp
  | some v => simpa using h (tok, v) (dget_mem hg)

theorem sumBal_dset (tok : String) (ws : List (String × List (String × ℚ)))
    (w : String) (b : List (String × ℚ)) :
    sumBal tok (dset ws w b) =
      sumBal tok ws + dgetD b tok 0 - dgetD (dgetD ws w []) tok 0 := by
  induction ws with
  | nil => simp [dset, sumBal, dgetD, dget]
  | cons e rest ih =>
    obtain ⟨w0, b0⟩ := e
    by_cases h : w0 = w
    · subst h
      have hset : dset ((w0, b0) :: rest) w0 b = (w0, b) :: rest := by simp [dset]
      rw [hset]
      have h1 : dgetD ((w0, b0) :: rest) w0 [] = b0 := by
        simp [dgetD, dget_cons]
      rw [h1]
      simp only [sumBal]
      ring
    · have hset : dset ((w0, b0) :: rest) w b = (w0, b0) :: dset rest w b := by
        simp [dset, h]
      rw [hset]
      simp only [sumBal, ih, dgetD, dget_cons, if_neg h]
      ring

theorem sumBal_nonneg {ws : List (String × List (String × ℚ))}
    (h : ∀ e ∈ ws, ∀ b ∈ e.2, 0 ≤ b.2) (tok : String) : 0 ≤ sumBal tok ws := by
  induction ws with
  | nil => simp [sumBal]
  | cons e rest ih =>
    obtain ⟨w0, b0⟩ := e
    simp only [sumBal]
    have h1 : 0 ≤ dgetD b0 tok 0 :=
      dgetD_nonneg (fun x hx => h (w0, b0) (List.mem_cons_self _ _) x hx) tok
    have h2 : 0 ≤ sumBal tok rest := ih (fun e he => h e (List.mem_cons_of_mem _ he))
    linarith

theorem sumBal_zero_of_not_mem {ws : List (String × List (String × ℚ))} {tok : String}
    (h : ∀ e ∈ ws, tok ∉ e.2.map Prod.fst) : sumBal tok ws = 0 := by
  induction ws with
  | nil => rfl
  | cons e rest ih =>
    obtain ⟨w0, b0⟩ := e
    simp only [sumBal]
    rw [ih (fun e he => h e (List.mem_cons_of_mem _ he))]
    have : dget b0 tok = none :=
      dget_eq_none_of_not_mem (h (w0, b0) (List.mem_cons_self _ _))
    simp [dgetD, this]

/-- Extended conservation: a token's `total_supply` equals the wallet
balances plus the reserves of the pool (if any) registered under that
symbol. -/
def Cons (s : St) : Prop :=
  ∀ tok, dgetD s.total_supply tok 0 =
    sumBal tok s.wallets + dgetD s.underlying_reserves tok 0

/-- The token symbols mentioned anywhere in the state. -/
def tokenKeys (s : St) : List String :=
  s.total_supply.map Prod.fst ++ s.underlying_reserves.map Prod.fst ++
    (s.wallets.map (fun e => e.2.map Prod.fst)).flatten

/-- Decidable version of `Cons`, bounded to the mentioned symbols. -/
def ConsD (s : St) : Prop :=
  ∀ tok ∈ tokenKeys s, dgetD s.total_supply tok 0 =
    sumBal tok s.wallets + dgetD s.underlying_reserves tok 0

instance (s : St) : Decidable (ConsD s) := by
  unfold ConsD; infer_instance

theorem cons_iff_consD (s : St) : Cons s ↔ ConsD s := by
  constructor
  · intro h tok _; exact h tok
  · intro h tok
    by_cases hmem : tok ∈ tokenKeys s
    · exact h tok hmem
    · unfold tokenKeys at hmem
      simp only [List.mem_append, not_or] at hmem
      obtain ⟨⟨h1, h2⟩, h3⟩ := hmem
      have e1 : dgetD s.total_supply tok 0 = 0 := by
        simp [dgetD, dget_eq_none_of_not_mem h1]
      have e2 : dgetD s.underlying_reserves tok 0 = 0 := by
        simp [dgetD, dget_eq_none_of_not_mem h2]
      have e3 : sumBal tok s.wallets = 0 := by
        apply sumBal_zero_of_not_mem
        intro e he hc
        exact h3 (by
          simp only [List.mem_flatten]
          exact ⟨e.2.map Prod.fst, List.mem_map.mpr ⟨e, he, rfl⟩, hc⟩)
      rw [e1, e2, e3]; ring

/-- Every wallet balance entry is non-negative. -/
def BalNonneg (s : St) : Prop := ∀ e ∈ s.wallets, ∀ b ∈ e.2, 0 ≤ b.2

instance (s : St) : Decidable (BalNonneg s) := by
  unfold BalNonneg; infer_instance

/-- Every pool reserve entry is non-negative. -/
def ResNonneg (s : St) : Prop := ∀ e ∈ s.underlying_reserves, 0 ≤ e.2

instance (s : St) : Decidable (ResNonneg s) := by
  unfold ResNonneg; infer_instance

/-- The reserve identity of the spec:
`underlying_reserve == supply_claim.total_supply − debt_claim.total_supply`
for every registered pool. -/
def ReserveId (cfg : Config) (s : St) : Prop :=
  ∀ p ∈ cfg.pools, dgetD s.underlying_reserves p.underlying_token 0 =
    dgetD s.total_supply p.a_token 0 - dgetD s.total_supply p.v_token 0

instance (cfg : Config) (s : St) : Decidable (ReserveId cfg s) := by
  unfold ReserveId; infer_instance

/-- The invariant bundle preserved by every successful operation. -/
def Inv (cfg : Config) (s : St) : Prop :=
  StWF s ∧ ConsD s ∧ BalNonneg s ∧ ResNonneg s ∧ ReserveId cfg s

instance (cfg : Config) (s : St) : Decidable (Inv cfg s) := by
  unfold Inv; infer_instance

theorem pairwise_ne_elim {α : Type} {R : α → α → Prop} (hsym : ∀ a b, R a b → R b a)
    {l : List α} (h : l.Pairwise R) {a b : α} (ha : a ∈ l) (hb : b ∈ l)
    (hne : a ≠ b) : R a b := by
  induction l with
  | nil => simp at ha
  | cons x rest ih =>
    rcases List.pairwise_cons.mp h with ⟨hx, hrest⟩
    rcases List.mem_cons.mp ha with ha' | ha' <;> rcases List.mem_cons.mp hb with hb' | hb'
    · exact absurd (ha'.trans hb'.symm) hne
    · exact ha' ▸ hx b hb'
    · exact hsym _ _ (hb' ▸ hx a ha')
    · exact ih hrest ha' hb'

/-- The symbol-distinctness facts for two distinct registered pools. -/
theorem Config.WF.distinct {cfg : Config} (h : cfg.WF) {p q : LendingPool}
    (hp : p ∈ cfg.pools) (hq : q ∈ cfg.pools) (hne : p ≠ q) :
    p.underlying_token ≠ q.underlying_token ∧ p.a_token ≠ q.a_token ∧
    p.a_token ≠ q.v_token ∧ p.v_token ≠ q.a_token ∧ p.v_token ≠ q.v_token := by
  refine pairwise_ne_elim ?_ h.1 hp hq hne
  intro a b hab
  exact ⟨Ne.symm hab.1, Ne.symm hab.2.1, Ne.symm hab.2.2.2.1, Ne.symm hab.2.2.1,
    Ne.symm hab.2.2.2.2⟩

theorem supply_decomp {p : LendingPool} {w : String} {amount : ℚ} {s s' : St}
    (h : p.supply w amount s = .ok s') :
    ∃ s1, p.underlyingTransfer w p.underlying_token amount true s = .ok s1 ∧
      Token.mint p.a_token w amount s1 = .ok s' := by
  unfold LendingPool.supply at h
  cases htr : p.underlyingTransfer w p.underlying_token amount true s with
  | error e => rw [htr] at h; simp at h
  | ok s1 => exact ⟨s1, rfl, by rw [htr] at h; exact h⟩

theorem repay_decomp {p : LendingPool} {w : String} {amount : ℚ} {s s' : St}
    (h : p.repay w amount s = .ok s') :
    ∃ s1, p.underlyingTransfer w p.underlying_token amount true s = .ok s1 ∧
      Token.burn p.v_token w amount s1 = .ok s' := by
  unfold LendingPool.repay at h
  cases htr : p.underlyingTransfer w p.underlying_token amount true s with
  | error e => rw [htr] at h; simp at h
  | ok s1 => exact ⟨s1, rfl, by rw [htr] at h; exact h⟩

theorem withdraw_decomp {cfg : Config} {p : LendingPool} {w : String} {amount : ℚ}
    {s s' : St} (h : LendingPool.withdraw cfg p w amount s = .ok s') :
    ∃ hf, Wallet.health_factor_after cfg (s.bal w) [(p.a_token, -amount)] [] = some hf ∧
      hf.gtOne = true ∧
      ∃ s1, p.underlyingTransfer w p.underlying_token amount false s = .ok s1 ∧
        Token.burn p.a_token w amount s1 = .ok s' := by
  unfold LendingPool.withdraw at h
  cases hhf : Wallet.health_factor_after cfg (s.bal w) [(p.a_token, -amount)] [] with
  | none => rw [hhf] at h; simp at h
  | some hf =>
    rw [hhf] at h
    replace h : (if hf.gtOne = true then
        match p.underlyingTransfer w p.underlying_token amount false s with
        | Except.error e => Except.error e
        | Except.ok s1 => Token.burn p.a_token w amount s1
      else Except.error s) = Except.ok s' := h
    by_cases hgt : hf.gtOne = true
    · rw [if_pos hgt] at h
      refine ⟨hf, rfl, hgt, ?_⟩
      cases htr : p.underlyingTransfer w p.underlying_token amount false s with
      | error e => rw [htr] at h; simp at h
      | ok s1 => exact ⟨s1, rfl, by rw [htr] at h; exact h⟩
    · rw [if_neg hgt] at h; simp at h

theorem borrow_decomp {cfg : Config} {p : LendingPool} {w : String} {amount : ℚ}
    {s s' : St} (h : LendingPool.borrow cfg p w amount s = .ok s') :
    ∃ hf, Wallet.health_factor_after cfg (s.bal w) [] [(p.v_token, amount)] = some hf ∧
      hf.gtOne = true ∧
      ∃ s1, p.underlyingTransfer w p.underlying_token amount false s = .ok s1 ∧
        Token.mint p.v_token w amount s1 = .ok s' := by
  unfold LendingPool.borrow at h
  cases hhf : Wallet.health_factor_after cfg (s.bal w) [] [(p.v_token, amount)] with
  | none => rw [hhf] at h; simp at h
  | some hf =>
    rw [hhf] at h
    replace h : (if hf.gtOne = true then
        match p.underlyingTransfer w p.underlying_token amount false s with
        | Except.error e => Except.error e
        | Except.ok s1 => Token.mint p.v_token w amount s1
      else Except.error s) = Except.ok s' := h
    by_cases hgt : hf.gtOne = true
    · rw [if_pos hgt] at h
      refine ⟨hf, rfl, hgt, ?_⟩
      cases htr : p.underlyingTransfer w p.underlying_token amount false s with
      | error e => rw [htr] at h; simp at h
      | ok s1 => exact ⟨s1, rfl, by rw [htr] at h; exact h⟩
    · rw [if_neg hgt] at h; simp at h

/-! ### Conservation is preserved by every building block -/

theorem cons_mint {sym w : String} {amount : ℚ} {s s' : St}
    (h : Token.mint sym w amount s = .ok s') (hc : Cons s) : Cons s' := by
  obtain ⟨hpos, rfl⟩ := mint_ok_iff.mp h
  intro tok
  simp only [sumBal_dset, dgetD_dset, St.bal]
  have hx := hc tok
  by_cases hst : sym = tok
  · subst hst; simp only [eq_self_iff_true, if_true]; linarith
  · simp only [if_neg hst]; linarith

theorem cons_burn {sym w : String} {amount : ℚ} {s s' : St}
    (h : Token.burn sym w amount s = .ok s') (hc : Cons s) : Cons s' := by
  obtain ⟨hpos, hle, rfl⟩ := burn_ok_iff.mp h
  intro tok
  simp only [sumBal_dset, dgetD_dset, St.bal]
  have hx := hc tok
  by_cases hst : sym = tok
  · subst hst; simp only [eq_self_iff_true, if_true]; linarith
  · simp only [if_neg hst]; linarith

theorem cons_transfer {sym sender receiver : String} {amount : ℚ} {s s' : St}
    (h : Token.transfer sym sender receiver amount s = .ok s') (hc : Cons s) :
    Cons s' := by
  obtain ⟨hpos, hle, rfl⟩ := transfer_ok_iff.mp h
  intro tok
  simp only [sumBal_dset, dgetD_dset, St.bal]
  have hx := hc tok
  by_cases hst : sym = tok
  · subst hst; simp only [eq_self_iff_true, if_true]; linarith
  · simp only [if_neg hst]; linarith

theorem cons_underlyingTransfer {p : LendingPool} {w : String} {amount : ℚ}
    {fw : Bool} {s s' : St}
    (h : p.underlyingTransfer w p.underlying_token amount fw s = .ok s')
    (hc : Cons s) : Cons s' := by
  cases fw
  · obtain ⟨hpos, hle, rfl⟩ := underlyingTransfer_false_ok_iff.mp h
    intro tok
    simp only [sumBal_dset, dgetD_dset, St.bal]
    have hx := hc tok
    by_cases hst : p.underlying_token = tok
    · subst hst; simp only [eq_self_iff_true, if_true]; linarith
    · simp only [if_neg hst]; linarith
  · obtain ⟨hpos, hle, rfl⟩ := underlyingTransfer_true_ok_iff.mp h
    intro tok
    simp only [sumBal_dset, dgetD_dset, St.bal]
    have hx := hc tok
    by_cases hst : p.underlying_token = tok
    · subst hst; simp only [eq_self_iff_true, if_true]; linarith
    · simp only [if_neg hst]; linarith

/-! ### Structural invariants are preserved by every building block -/

theorem bal_entries_nonneg {s : St} (h : BalNonneg s) (w : String) :
    ∀ b ∈ s.bal w, 0 ≤ b.2 := by
  unfold St.bal dgetD
  cases hg : dget s.wallets w with
  | none => simp
  | some bb =>
    intro x hx
    exact h (w, bb) (dget_mem hg) x (by simpa using hx)

theorem bal_nodup {s : St} (h : StWF s) (w : String) :
    ((s.bal w).map Prod.fst).Nodup := by
  unfold St.bal dgetD
  cases hg : dget s.wallets w with
  | none => simp
  | some bb => simpa using h.2 (w, bb) (dget_mem hg)

theorem stwf_set_wallet {s : St} (h : StWF s) (w sym : String) (v : ℚ)
    (ts rs : List (String × ℚ)) :
    StWF { total_supply := ts, underlying_reserves := rs,
           wallets := dset s.wallets w (dset (s.bal w) sym v) } := by
  constructor
  · exact keys_dset_nodup _ _ h.1
  · intro e he
    rcases mem_dset he with he | he
    · exact h.2 e he
    · rw [he]
      exact keys_dset_nodup _ _ (bal_nodup h w)

theorem balNonneg_set_wallet {s : St} (h : BalNonneg s) {w sym : String} {v : ℚ}
    (hv : 0 ≤ v) (ts rs : List (String × ℚ)) :
    BalNonneg { total_supply := ts, underlying_reserves := rs,
                wallets := dset s.wallets w (dset (s.bal w) sym v) } := by
  intro e he b hb
  rcases mem_dset he with he | he
  · exact h e he b hb
  · rw [he] at hb
    rcases mem_dset hb with hb' | hb'
    · exact bal_entries_nonneg h w b hb'
    · rw [hb']; exact hv

theorem resNonneg_dset {s : St} (h : ResNonneg s) {k : String} {v : ℚ}
    (hv : 0 ≤ v) (ts : List (String × ℚ)) (ws : List (String × List (String × ℚ))) :
    ResNonneg { total_supply := ts, underlying_reserves := dset s.underlying_reserves k v,
                wallets := ws } := by
  intro e he
  rcases mem_dset he with he | he
  · exact h e he
  · rw [he]; exact hv

/-- The invariants preserved by every successful operation, pool transitions
and bare token calls alike. -/
def Inv0 (s : St) : Prop := StWF s ∧ Cons s ∧ BalNonneg s ∧ ResNonneg s

theorem inv0_mint {sym w : String} {amount : ℚ} {s s' : St}
    (h : Token.mint sym w amount s = .ok s') (hi : Inv0 s) : Inv0 s' := by
  obtain ⟨hwf, hc, hb, hr⟩ := hi
  have hcons := cons_mint h hc
  obtain ⟨hpos, rfl⟩ := mint_ok_iff.mp h
  refine ⟨stwf_set_wallet hwf _ _ _ _ _, hcons, ?_, hr⟩
  exact balNonneg_set_wallet hb
    (by
      have := dgetD_nonneg (bal_entries_nonneg hb w) sym
      linarith) _ _

theorem inv0_burn {sym w : String} {amount : ℚ} {s s' : St}
    (h : Token.burn sym w amount s = .ok s') (hi : Inv0 s) : Inv0 s' := by
  obtain ⟨hwf, hc, hb, hr⟩ := hi
  have hcons := cons_burn h hc
  obtain ⟨hpos, hle, rfl⟩ := burn_ok_iff.mp h
  refine ⟨stwf_set_wallet hwf _ _ _ _ _, hcons, ?_, hr⟩
  exact balNonneg_set_wallet hb (by linarith) _ _

theorem inv0_transfer {sym sender receiver : String} {amount : ℚ} {s s' : St}
    (h : Token.transfer sym sender receiver amount s = .ok s') (hi : Inv0 s) :
    Inv0 s' := by
  obtain ⟨hwf, hc, hb, hr⟩ := hi
  have hcons := cons_transfer h hc
  obtain ⟨hpos, hle, rfl⟩ := transfer_ok_iff.mp h
  have hwf1 : StWF { s with
      wallets := dset s.wallets sender
          (dset (s.bal sender) sym (dgetD (s.bal sender) sym 0 - amount)) } :=
    stwf_set_wallet hwf _ _ _ _ _
  have hb1 : BalNonneg { s with
      wallets := dset s.wallets sender
          (dset (s.bal sender) sym (dgetD (s.bal sender) sym 0 - amount)) } :=
    balNonneg_set_wallet hb (by linarith) _ _
  refine ⟨stwf_set_wallet hwf1 _ _ _ _ _, hcons, ?_, hr⟩
  exact balNonneg_set_wallet hb1
    (by
      have := dgetD_nonneg (bal_entries_nonneg hb1 receiver) sym
      linarith) _ _

theorem inv0_underlyingTransfer {p : LendingPool} {w : String} {amount : ℚ}
    {fw : Bool} {s s' : St}
    (h : p.underlyingTransfer w p.underlying_token amount fw s = .ok s')
    (hi : Inv0 s) : Inv0 s' := by
  obtain ⟨hwf, hc, hb, hr⟩ := hi
  have hcons := cons_underlyingTransfer h hc
  cases fw
  · obtain ⟨hpos, hle, rfl⟩ := underlyingTransfer_false_ok_iff.mp h
    refine ⟨stwf_set_wallet hwf _ _ _ _ _, hcons, ?_, ?_⟩
    · exact balNonneg_set_wallet hb
        (by
          have := dgetD_nonneg (bal_entries_nonneg hb w) p.underlying_token
          linarith) _ _
    · exact resNonneg_dset hr (by linarith) _ _
  · obtain ⟨hpos, hle, rfl⟩ := underlyingTransfer_true_ok_iff.mp h
    refine ⟨stwf_set_wallet hwf _ _ _ _ _, hcons, ?_, ?_⟩
    · exact balNonneg_set_wallet hb (by linarith) _ _
    · exact resNonneg_dset hr
        (by
          have := dgetD_nonneg hr p.underlying_token
          linarith) _ _

theorem inv0_supply {p : LendingPool} {w : String} {amount : ℚ} {s s' : St}
    (h : p.supply w amount s = .ok s') (hi : Inv0 s) : Inv0 s' := by
  obtain ⟨s1, htr, hm⟩ := supply_decomp h
  exact inv0_mint hm (inv0_underlyingTransfer htr hi)

theorem inv0_repay {p : LendingPool} {w : String} {amount : ℚ} {s s' : St}
    (h : p.repay w amount s = .ok s') (hi : Inv0 s) : Inv0 s' := by
  obtain ⟨s1, htr, hm⟩ := repay_decomp h
  exact inv0_burn hm (inv0_underlyingTransfer htr hi)

theorem inv0_withdraw {cfg : Config} {p : LendingPool} {w : String} {amount : ℚ}
    {s s' : St} (h : LendingPool.withdraw cfg p w amount s = .ok s') (hi : Inv0 s) :
    Inv0 s' := by
  obtain ⟨hf, _, _, s1, htr, hbn⟩ := withdraw_decomp h
  exact inv0_burn hbn (inv0_underlyingTransfer htr hi)

theorem inv0_borrow {cfg : Config} {p : LendingPool} {w : String} {amount : ℚ}
    {s s' : St} (h : LendingPool.borrow cfg p w amount s = .ok s') (hi : Inv0 s) :
    Inv0 s' := by
  obtain ⟨hf, _, _, s1, htr, hm⟩ := borrow_decomp h
  exact inv0_mint hm (inv0_underlyingTransfer htr hi)

/-! ### The reserve identity is preserved by the four pool transitions -/

theorem reserveId_supply {cfg : Config} {p : LendingPool} {w : String} {amount : ℚ}
    {s s' : St} (hwf : cfg.WF) (hp : p ∈ cfg.pools)
    (h : p.supply w amount s = .ok s') (hr : ReserveId cfg s) : ReserveId cfg s' := by
  obtain ⟨s1, htr, hm⟩ := supply_decomp h
  obtain ⟨hpos, hle, rfl⟩ := underlyingTransfer_true_ok_iff.mp htr
  obtain ⟨_, rfl⟩ := mint_ok_iff.mp hm
  intro q hq
  have hrq := hr q hq
  dsimp only
  simp only [dgetD_dset]
  by_cases hpq : p = q
  · subst hpq
    have hd := hwf.2 p hp
    simp only [eq_self_iff_true, if_true, if_neg hd.2.2]
    linarith
  · have hd := hwf.distinct hp hq hpq
    simp only [if_neg hd.1, if_neg hd.2.1, if_neg hd.2.2.1]
    linarith

theorem reserveId_withdraw {cfg : Config} {p : LendingPool} {w : String} {amount : ℚ}
    {s s' : St} (hwf : cfg.WF) (hp : p ∈ cfg.pools)
    (h : LendingPool.withdraw cfg p w amount s = .ok s') (hr : ReserveId cfg s) :
    ReserveId cfg s' := by
  obtain ⟨hf, _, _, s1, htr, hbn⟩ := withdraw_decomp h
  obtain ⟨hpos, hle, rfl⟩ := underlyingTransfer_false_ok_iff.mp htr
  obtain ⟨_, _, rfl⟩ := burn_ok_iff.mp hbn
  intro q hq
  have hrq := hr q hq
  dsimp only
  simp only [dgetD_dset]
  by_cases hpq : p = q
  · subst hpq
    have hd := hwf.2 p hp
    simp only [eq_self_iff_true, if_true, if_neg hd.2.2]
    linarith
  · have hd := hwf.distinct hp hq hpq
    simp only [if_neg hd.1, if_neg hd.2.1, if_neg hd.2.2.1]
    linarith

theorem reserveId_borrow {cfg : Config} {p : LendingPool} {w : String} {amount : ℚ}
    {s s' : St} (hwf : cfg.WF) (hp : p ∈ cfg.pools)
    (h : LendingPool.borrow cfg p w amount s = .ok s') (hr : ReserveId cfg s) :
    ReserveId cfg s' := by
  obtain ⟨hf, _, _, s1, htr, hm⟩ := borrow_decomp h
  obtain ⟨hpos, hle, rfl⟩ := underlyingTransfer_false_ok_iff.mp htr
  obtain ⟨_, rfl⟩ := mint_ok_iff.mp hm
  intro q hq
  have hrq := hr q hq
  dsimp only
  simp only [dgetD_dset]
  by_cases hpq : p = q
  · subst hpq
    have hd := hwf.2 p hp
    simp only [eq_self_iff_true, if_true, if_neg (Ne.symm hd.2.2)]
    linarith
  · have hd := hwf.distinct hp hq hpq
    simp only [if_neg hd.1, if_neg hd.2.2.2.1, if_neg hd.2.2.2.2]
    linarith

theorem reserveId_repay {cfg : Config} {p : LendingPool} {w : String} {amount : ℚ}
    {s s' : St} (hwf : cfg.WF) (hp : p ∈ cfg.pools)
    (h : p.repay w amount s = .ok s') (hr : ReserveId cfg s) : ReserveId cfg s' := by
  obtain ⟨s1, htr, hbn⟩ := repay_decomp h
  obtain ⟨hpos, hle, rfl⟩ := underlyingTransfer_true_ok_iff.mp htr
  obtain ⟨_, _, rfl⟩ := burn_ok_iff.mp hbn
  intro q hq
  have hrq := hr q hq
  dsimp only
  simp only [dgetD_dset]
  by_cases hpq : p = q
  · subst hpq
    have hd := hwf.2 p hp
    simp only [eq_self_iff_true, if_true, if_neg (Ne.symm hd.2.2)]
    linarith
  · have hd := hwf.distinct hp hq hpq
    simp only [if_neg hd.1, if_neg hd.2.2.2.1, if_neg hd.2.2.2.2]
    linarith

/-! ### Lifting to operation sequences -/

theorem runOp_inv0 {cfg : Config} {o : Op} {s s' : St}
    (h : runOp cfg o s = .ok s') (hi : Inv0 s) : Inv0 s' := by
  cases o with
  | mint sym w amount => exact inv0_mint h hi
  | burn sym w amount => exact inv0_burn h hi
  | transfer sym sender receiver amount => exact inv0_transfer h hi
  | supply u w amount =>
    replace h : (match cfg.pools.find? (fun p => p.underlying_token = u) with
        | some p => p.supply w amount s
        | none => Except.error s) = Except.ok s' := h
    cases hf : cfg.pools.find? (fun p => p.underlying_token = u) with
    | none => rw [hf] at h; simp at h
    | some p => rw [hf] at h; exact inv0_supply h hi
  | withdraw u w amount =>
    replace h : (match cfg.pools.find? (fun p => p.underlying_token = u) with
        | some p => LendingPool.withdraw cfg p w amount s
        | none => Except.error s) = Except.ok s' := h
    cases hf : cfg.pools.find? (fun p => p.underlying_token = u) with
    | none => rw [hf] at h; simp at h
    | some p => rw [hf] at h; exact inv0_withdraw h hi
  | borrow u w amount =>
    replace h : (match cfg.pools.find? (fun p => p.underlying_token = u) with
        | some p => LendingPool.borrow cfg p w amount s
        | none => Except.error s) = Except.ok s' := h
    cases hf : cfg.pools.find? (fun p => p.underlying_token = u) with
    | none => rw [hf] at h; simp at h
    | some p => rw [hf] at h; exact inv0_borrow h hi
  | repay u w amount =>
    replace h : (match cfg.pools.find? (fun p => p.underlying_token = u) with
        | some p => p.repay w amount s
        | none => Except.error s) = Except.ok s' := h
    cases hf : cfg.pools.find? (fun p => p.underlying_token = u) with
    | none => rw [hf] at h; simp at h
    | some p => rw [hf] at h; exact inv0_repay h hi

theorem runOp_reserveId {cfg : Config} {o : Op} {s s' : St} (hwf : cfg.WF)
    (h : runOp cfg o s = .ok s') (hpool : o.isPoolOp = true)
    (hr : ReserveId cfg s) : ReserveId cfg s' := by
  cases o with
  | mint sym w amount => simp [Op.isPoolOp] at hpool
  | burn sym w amount => simp [Op.isPoolOp] at hpool
  | transfer sym sender receiver amount => simp [Op.isPoolOp] at hpool
  | supply u w amount =>
    replace h : (match cfg.pools.find? (fun p => p.underlying_token = u) with
        | some p => p.supply w amount s
        | none => Except.error s) = Except.ok s' := h
    cases hf : cfg.pools.find? (fun p => p.underlying_token = u) with
    | none => rw [hf] at h; simp at h
    | some p =>
      rw [hf] at h
      exact reserveId_supply hwf (List.mem_of_find?_eq_some hf) h hr
  | withdraw u w amount =>
    replace h : (match cfg.pools.find? (fun p => p.underlying_token = u) with
        | some p => LendingPool.withdraw cfg p w amount s
        | none => Except.error s) = Except.ok s' := h
    cases hf : cfg.pools.find? (fun p => p.underlying_token = u) with
    | none => rw [hf] at h; simp at h
    | some p =>
      rw [hf] at h
      exact reserveId_withdraw hwf (List.mem_of_find?_eq_some hf) h hr
  | borrow u w amount =>
    replace h : (match cfg.pools.find? (fun p => p.underlying_token = u) with
        | some p => LendingPool.borrow cfg p w amount s
        | none => Except.error s) = Except.ok s' := h
    cases hf : cfg.pools.find? (fun p => p.underlying_token = u) with
    | none => rw [hf] at h; simp at h
    | some p =>
      rw [hf] at h
      exact reserveId_borrow hwf (List.mem_of_find?_eq_some hf) h hr
  | repay u w amount =>
    replace h : (match cfg.pools.find? (fun p => p.underlying_token = u) with
        | some p => p.repay w amount s
        | none => Except.error s) = Except.ok s' := h
    cases hf : cfg.pools.find? (fun p => p.underlying_token = u) with
    | none => rw [hf] at h; simp at h
    | some p =>
      rw [hf] at h
      exact reserveId_repay hwf (List.mem_of_find?_eq_some hf) h hr

theorem runOk_inv0 {cfg : Config} {ops : List Op} {s s' : St}
    (h : runOk cfg ops s = some s') (hi : Inv0 s) : Inv0 s' := by
  induction ops generalizing s with
  | nil => simp [runOk] at h; rw [← h]; exact hi
  | cons o rest ih =>
    unfold runOk at h
    cases ho : runOp cfg o s with
    | error e => rw [ho] at h; simp at h
    | ok s1 =>
      rw [ho] at h
      exact ih h (runOp_inv0 ho hi)

theorem runOk_reserveId {cfg : Config} {ops : List Op} {s s' : St} (hwf : cfg.WF)
    (hall : ∀ o ∈ ops, o.isPoolOp = true) (h : runOk cfg ops s = some s')
    (hr : ReserveId cfg s) : ReserveId cfg s' := by
  induction ops generalizing s with
  | nil => simp [runOk] at h; rw [← h]; exact hr
  | cons o rest ih =>
    unfold runOk at h
    cases ho : runOp cfg o s with
    | error e => rw [ho] at h; simp at h
    | ok s1 =>
      rw [ho] at h
      exact ih (fun x hx => hall x (List.mem_cons_of_mem _ hx)) h
        (runOp_reserveId hwf ho (hall o (List.mem_cons_self _ _)) hr)

theorem runOp_cons {cfg : Config} {o : Op} {s s' : St}
    (h : runOp cfg o s = .ok s') (hc : Cons s) : Cons s' := by
  cases o with
  | mint sym w amount => exact cons_mint h hc
  | burn sym w amount => exact cons_burn h hc
  | transfer sym sender receiver amount => exact cons_transfer h hc
  | supply u w amount =>
    replace h : (match cfg.pools.find? (fun p => p.underlying_token = u) with
        | some p => p.supply w amount s
        | none => Except.error s) = Except.ok s' := h
    cases hf : cfg.pools.find? (fun p => p.underlying_token = u) with
    | none => rw [hf] at h; simp at h
    | some p =>
      rw [hf] at h
      obtain ⟨s1, htr, hm⟩ := supply_decomp h
      exact cons_mint hm (cons_underlyingTransfer htr hc)
  | withdraw u w amount =>
    replace h : (match cfg.pools.find? (fun p => p.underlying_token = u) with
        | some p => LendingPool.withdraw cfg p w amount s
        | none => Except.error s) = Except.ok s' := h
    cases hf : cfg.pools.find? (fun p => p.underlying_token = u) with
    | none => rw [hf] at h; simp at h
    | some p =>
      rw [hf] at h
      obtain ⟨hfv, _, _, s1, htr, hbn⟩ := withdraw_decomp h
      exact cons_burn hbn (cons_underlyingTransfer htr hc)
  | borrow u w amount =>
    replace h : (match cfg.pools.find? (fun p => p.underlying_token = u) with
        | some p => LendingPool.borrow cfg p w amount s
        | none => Except.error s) = Except.ok s' := h
    cases hf : cfg.pools.find? (fun p => p.underlying_token = u) with
    | none => rw [hf] at h; simp at h
    | some p =>
      rw [hf] at h
      obtain ⟨hfv, _, _, s1, htr, hm⟩ := borrow_decomp h
      exact cons_mint hm (cons_underlyingTransfer htr hc)
  | repay u w amount =>
    replace h : (match cfg.pools.find? (fun p => p.underlying_token = u) with
        | some p => p.repay w amount s
        | none => Except.error s) = Except.ok s' := h
    cases hf : cfg.pools.find? (fun p => p.underlying_token = u) with
    | none => rw [hf] at h; simp at h
    | some p =>
      rw [hf] at h
      obtain ⟨s1, htr, hbn⟩ := repay_decomp h
      exact cons_burn hbn (cons_underlyingTransfer htr hc)

theorem runOk_cons {cfg : Config} {ops : List Op} {s s' : St}
    (h : runOk cfg ops s = some s') (hc : Cons s) : Cons s' := by
  induction ops generalizing s with
  | nil => simp [runOk] at h; rw [← h]; exact hc
  | cons o rest ih =>
    unfold runOk at h
    cases ho : runOp cfg o s with
    | error e => rw [ho] at h; simp at h
    | ok s1 =>
      rw [ho] at h
      exact ih h (runOp_cons ho hc)

theorem usdSum_congr {f g : String → Option ℚ} (h : ∀ s, f s = g s)
    (l : List (String × ℚ)) : usdSum f l = usdSum g l := by
  rw [show f = g from funext h]

theorem weightFactor_isSome_iff (cfg : Config) (s : String) :
    (weightFactor cfg s).isSome ↔ (collateralFactor cfg s).isSome := by
  unfold weightFactor collateralFactor
  cases lookupAPool cfg s with
  | none => simp
  | some pool => cases priceOf cfg pool.underlying_token <;> simp

theorem weightSum_isSome {cfg : Config} {bal : List (String × ℚ)}
    (h : (usdSum (collateralFactor cfg) bal).isSome) :
    (usdSum (weightFactor cfg) bal).isSome := by
  rw [usdSum_isSome_iff] at h ⊢
  intro e he
  rw [weightFactor_isSome_iff]
  exact h e he

theorem health_factor_none_of_collateral {cfg : Config} {bal : List (String × ℚ)}
    (h : Wallet.total_collateral_usd cfg bal = none) :
    Wallet.health_factor cfg bal = none := by
  unfold Wallet.health_factor
  rw [h]

theorem health_factor_none_of_borrowed {cfg : Config} {bal : List (String × ℚ)}
    (h : Wallet.total_borrowed_usd cfg bal = none) :
    Wallet.health_factor cfg bal = none := by
  unfold Wallet.health_factor
  cases hC : Wallet.total_collateral_usd cfg bal with
  | none => rfl
  | some c => rw [h]

/-- With empty delta maps, `health_factor_after` computes exactly
`health_factor` (on configurations with unique token symbols). -/
theorem hfa_empty_eq_health_factor {cfg : Config} (hwf : cfg.WF)
    (bal : List (String × ℚ)) :
    Wallet.health_factor_after cfg bal [] [] = Wallet.health_factor cfg bal := by
  have htriv : ∀ l : List (String × ℚ), ∀ s ∈ l.map Prod.fst,
      dgetD ([] : List (String × ℚ)) s 0 = 0 := by
    intro l s _; rfl
  have hbscan : usdSum (borrowedScanFactor cfg) bal = usdSum (borrowedFactor cfg) bal :=
    usdSum_congr (borrowedScanFactor_eq_borrowedFactor hwf) bal
  unfold Wallet.health_factor_after
  rw [hfaScan_eq, usdSumD_eq_usdSum (htriv bal), usdSumD_eq_usdSum (htriv bal),
    usdSumD_eq_usdSum (htriv bal), hbscan, hfaNewDebt_nil]
  cases hC : usdSum (collateralFactor cfg) bal with
  | none =>
    rw [health_factor_none_of_collateral (by rw [total_collateral_usd_eq, hC])]
    rfl
  | some c =>
    cases hB : usdSum (borrowedFactor cfg) bal with
    | none =>
      rw [health_factor_none_of_borrowed (by rw [total_borrowed_usd_eq, hB])]
      cases usdSum (weightFactor cfg) bal <;> rfl
    | some b =>
      cases hW : usdSum (weightFactor cfg) bal with
      | none =>
        have : (usdSum (weightFactor cfg) bal).isSome := weightSum_isSome (by rw [hC]; rfl)
        rw [hW] at this
        simp at this
      | some w =>
        rw [health_factor_eq cfg bal hC hB hW]
        simp [Option.bind, add_zero]

/-! ## Concrete environments (the canonical usdc/wbtc example of the
repository, scaled down where convenient) -/

def poolUsdc : LendingPool :=
  { underlying_token := "usdc", a_token := "a_usdc", v_token := "v_usdc",
    interest_rate := 3/100, reserve_rate := 2/10, max_ltv := 73/100,
    liquidation_bonus := 5/100, liquidation_threshold := 78/100,
    closing_factor := 1/2 }

def poolWbtc : LendingPool :=
  { underlying_token := "wbtc", a_token := "a_wbtc", v_token := "v_wbtc",
    interest_rate := 3/1000, reserve_rate := 2/10, max_ltv := 73/100,
    liquidation_bonus := 5/100, liquidation_threshold := 78/100,
    closing_factor := 1/2 }

def demoConfig : Config :=
  { pools := [poolUsdc, poolWbtc],
    prices := [("usdc", 10001/10000), ("wbtc", 50000)] }

/-- The same pools with an empty price table. -/
def demoConfigNoPrices : Config :=
  { pools := [poolUsdc, poolWbtc], prices := [] }

/-- A post-construction state: alice holds 100 usdc, both pools fresh. -/
def stW : St :=
  { total_supply := [("usdc", 100)],
    underlying_reserves := [],
    wallets := [("alice", [("usdc", 100)])] }

/-! ## Claims -/

/-- The state left behind by `repay(alice, 5)` on `stW` (alice holds no
debt-claim tokens): the underlying transfer has already been committed when
the `v_token.burn` assertion fires. -/
def claim1bad : St :=
  { total_supply := [("usdc", 100)],
    underlying_reserves := [("usdc", 5)],
    wallets := [("alice", [("usdc", 95)])] }

/-- C1 counterexample: `repay(alice, 5)` on a wallet with no debt-claim
balance fails (the burn's balance assertion), yet the pool reserve has
gained 5 usdc and the wallet has lost 5 usdc — the failed transition did
not leave the state as it was. -/
theorem claim1_counterexample :
    LendingPool.repay poolUsdc "alice" 5 stW = .error claim1bad ∧
      claim1bad ≠ stW :=
  ⟨by with_unfolding_all decide, by decide⟩

/-- C1 (amended): `supply` and `borrow` are atomic — a failed call leaves
the state exactly as it was; `withdraw` and `repay` are atomic only when
the wallet's claim-token balance covers the amount, because the claim-token
balance check happens after the underlying transfer has been committed. -/
theorem claim1_atomicity_amended (cfg : Config) (p : LendingPool) (w : String)
    (amount : ℚ) (s s' : St)
    (hua : p.underlying_token ≠ p.a_token)
    (huv : p.underlying_token ≠ p.v_token) :
    (p.supply w amount s = .error s' → s' = s) ∧
    (LendingPool.borrow cfg p w amount s = .error s' → s' = s) ∧
    (amount ≤ dgetD (s.bal w) p.a_token 0 →
      LendingPool.withdraw cfg p w amount s = .error s' → s' = s) ∧
    (amount ≤ dgetD (s.bal w) p.v_token 0 →
      p.repay w amount s = .error s' → s' = s) := by
  refine ⟨?_, ?_, ?_, ?_⟩
  · intro h
    unfold LendingPool.supply at h
    cases htr : p.underlyingTransfer w p.underlying_token amount true s with
    | error e =>
      rw [htr] at h
      have he := underlyingTransfer_error_eq htr
      simp only [Except.error.injEq] at h
      rw [← h]; exact he
    | ok s1 =>
      rw [htr] at h
      obtain ⟨hpos, _⟩ := underlyingTransfer_true_ok_iff.mp htr
      obtain ⟨hneg, _⟩ := mint_error_iff.mp h
      exact absurd hpos hneg
  · intro h
    unfold LendingPool.borrow at h
    cases hhf : Wallet.health_factor_after cfg (s.bal w) [] [(p.v_token, amount)] with
    | none =>
      rw [hhf] at h
      simp only [Except.error.injEq] at h
      exact h.symm
    | some hf =>
      rw [hhf] at h
      replace h : (if hf.gtOne = true then
          match p.underlyingTransfer w p.underlying_token amount false s with
          | Except.error e => Except.error e
          | Except.ok s1 => Token.mint p.v_token w amount s1
        else Except.error s) = Except.error s' := h
      by_cases hgt : hf.gtOne = true
      · rw [if_pos hgt] at h
        cases htr : p.underlyingTransfer w p.underlying_token amount false s with
        | error e =>
          rw [htr] at h
          have he := underlyingTransfer_error_eq htr
          simp only [Except.error.injEq] at h
          rw [← h]; exact he
        | ok s1 =>
          rw [htr] at h
          obtain ⟨hpos, _⟩ := underlyingTransfer_false_ok_iff.mp htr
          obtain ⟨hneg, _⟩ := mint_error_iff.mp h
          exact absurd hpos hneg
      · rw [if_neg hgt] at h
        simp only [Except.error.injEq] at h
        exact h.symm
  · intro hbal h
    unfold LendingPool.withdraw at h
    cases hhf : Wallet.health_factor_after cfg (s.bal w) [(p.a_token, -amount)] [] with
    | none =>
      rw [hhf] at h
      simp only [Except.error.injEq] at h
      exact h.symm
    | some hf =>
      rw [hhf] at h
      replace h : (if hf.gtOne = true then
          match p.underlyingTransfer w p.underlying_token amount false s with
          | Except.error e => Except.error e
          | Except.ok s1 => Token.burn p.a_token w amount s1
        else Except.error s) = Except.error s' := h
      by_cases hgt : hf.gtOne = true
      · rw [if_pos hgt] at h
        cases htr : p.underlyingTransfer w p.underlying_token amount false s with
        | error e =>
          rw [htr] at h
          have he := underlyingTransfer_error_eq htr
          simp only [Except.error.injEq] at h
          rw [← h]; exact he
        | ok s1 =>
          rw [htr] at h
          obtain ⟨hpos, hres, hs1⟩ := underlyingTransfer_false_ok_iff.mp htr
          obtain ⟨hneg, _⟩ := burn_error_iff.mp h
          refine absurd ⟨hpos, ?_⟩ hneg
          rw [hs1]
          simp only [St.bal, dgetD_dset_self]
          rw [dgetD_dset_ne _ _ _ _ _ hua]
          exact hbal
      · rw [if_neg hgt] at h
        simp only [Except.error.injEq] at h
        exact h.symm
  · intro hbal h
    unfold LendingPool.repay at h
    cases htr : p.underlyingTransfer w p.underlying_token amount true s with
    | error e =>
      rw [htr] at h
      have he := underlyingTransfer_error_eq htr
      simp only [Except.error.injEq] at h
      rw [← h]; exact he
    | ok s1 =>
      rw [htr] at h
      obtain ⟨hpos, hres, hs1⟩ := underlyingTransfer_true_ok_iff.mp htr
      obtain ⟨hneg, _⟩ := burn_error_iff.mp h
      refine absurd ⟨hpos, ?_⟩ hneg
      rw [hs1]
      simp only [St.bal, dgetD_dset_self]
      rw [dgetD_dset_ne _ _ _ _ _ huv]
      exact hbal

/-- Witness for the amended C1 at the canonical pool and a concrete state. -/
theorem claim1_amended_witness :
    (poolUsdc.supply "alice" 5 stW = .error stW → stW = stW) ∧
    (LendingPool.borrow demoConfig poolUsdc "alice" 5 stW = .error stW → stW = stW) ∧
    ((5 : ℚ) ≤ dgetD (stW.bal "alice") poolUsdc.a_token 0 →
      LendingPool.withdraw demoConfig poolUsdc "alice" 5 stW = .error stW → stW = stW) ∧
    ((5 : ℚ) ≤ dgetD (stW.bal "alice") poolUsdc.v_token 0 →
      poolUsdc.repay "alice" 5 stW = .error stW → stW = stW) :=
  claim1_atomicity_amended demoConfig poolUsdc "alice" 5 stW stW
    (by decide) (by decide)

/-- The state after `supply(alice, 100)` on `stW`: the 100 usdc moved from
alice into the pool reserve, which is not a wallet. -/
def claim2state : St :=
  { total_supply := [("usdc", 100), ("a_usdc", 100)],
    underlying_reserves := [("usdc", 100)],
    wallets := [("alice", [("usdc", 0), ("a_usdc", 100)])] }

/-- C2 counterexample: after a successful `supply(alice, 100)` the usdc
`total_supply` is still 100 but the sum of all wallet balances of usdc is
0 — the supplied underlying now sits in the pool reserve, so
`total_supply = Σ wallet balances` fails for the underlying token. -/
theorem claim2_counterexample :
    LendingPool.supply poolUsdc "alice" 100 stW = .ok claim2state ∧
      ¬ dgetD claim2state.total_supply "usdc" 0 = sumBal "usdc" claim2state.wallets :=
  ⟨by with_unfolding_all decide, by with_unfolding_all decide⟩

/-- C2 (amended): for every token, after any sequence of successful mint,
burn, transfer, supply, withdraw, borrow and repay calls,
`total_supply = Σ wallet balances + pool reserves held in that token`
(the pool reserve being the entry registered under the token's symbol). -/
theorem claim2_conservation_amended (cfg : Config) (ops : List Op) (s0 s1 : St)
    (hcons : ConsD s0) (hrun : runOk cfg ops s0 = some s1) : ConsD s1 :=
  (cons_iff_consD s1).mp (runOk_cons hrun ((cons_iff_consD s0).mpr hcons))

/-- The state after `[supply usdc 100, borrow usdc 20]` by alice on `stW`. -/
def stW2 : St :=
  { total_supply := [("usdc", 100), ("a_usdc", 100), ("v_usdc", 20)],
    underlying_reserves := [("usdc", 80)],
    wallets := [("alice", [("usdc", 20), ("a_usdc", 100), ("v_usdc", 20)])] }

/-- Witness for the amended C2. -/
theorem claim2_amended_witness : ConsD stW2 :=
  claim2_conservation_amended demoConfig
    [.supply "usdc" "alice" 100, .borrow "usdc" "alice" 20] stW stW2
    (by with_unfolding_all decide) (by with_unfolding_all decide)

/-- C3: for every lending pool, after any sequence of successful supply,
withdraw, borrow and repay transitions starting from pool construction
(zero reserve, zero claim-token supplies), the pool's underlying reserve
equals the supply-claim total supply minus the debt-claim total supply. -/
theorem claim3_reserve_identity (cfg : Config) (hwf : cfg.WF) (ops : List Op)
    (hops : ∀ o ∈ ops, o.isPoolOp = true) (s0 s1 : St)
    (hinit : ∀ p ∈ cfg.pools,
      dgetD s0.underlying_reserves p.underlying_token 0 = 0 ∧
      dgetD s0.total_supply p.a_token 0 = 0 ∧
      dgetD s0.total_supply p.v_token 0 = 0)
    (hrun : runOk cfg ops s0 = some s1) : ReserveId cfg s1 := by
  apply runOk_reserveId hwf hops hrun
  intro p hp
  obtain ⟨h1, h2, h3⟩ := hinit p hp
  rw [h1, h2, h3]
  ring

/-- Witness for C3. -/
theorem claim3_witness : ReserveId demoConfig stW2 :=
  claim3_reserve_identity demoConfig (by decide)
    [.supply "usdc" "alice" 100, .borrow "usdc" "alice" 20]
    (by decide) stW stW2 (by with_unfolding_all decide)
    (by with_unfolding_all decide)

/-- C5: a successful `supply(w, A)` followed by a successful
`withdraw(w, A)` restores the wallet's underlying and supply-claim
balances, the pool's underlying reserve and the supply-claim total supply
to their pre-supply values.  (`p.underlying_token ≠ p.a_token` always holds
for a constructed pool, whose claim symbols are fresh.) -/
theorem claim5_round_trip (cfg : Config) (p : LendingPool) (w : String) (A : ℚ)
    (s s1 s2 : St) (hua : p.underlying_token ≠ p.a_token)
    (hs : p.supply w A s = .ok s1)
    (hw : LendingPool.withdraw cfg p w A s1 = .ok s2) :
    dgetD (s2.bal w) p.underlying_token 0 = dgetD (s.bal w) p.underlying_token 0 ∧
    dgetD (s2.bal w) p.a_token 0 = dgetD (s.bal w) p.a_token 0 ∧
    dgetD s2.underlying_reserves p.underlying_token 0 =
      dgetD s.underlying_reserves p.underlying_token 0 ∧
    dgetD s2.total_supply p.a_token 0 = dgetD s.total_supply p.a_token 0 := by
  obtain ⟨t1, htr1, hm⟩ := supply_decomp hs
  obtain ⟨hpos1, hle1, ht1⟩ := underlyingTransfer_true_ok_iff.mp htr1
  obtain ⟨_, hs1eq⟩ := mint_ok_iff.mp hm
  obtain ⟨hfv, _, _, t2, htr2, hbn⟩ := withdraw_decomp hw
  obtain ⟨hpos2, hle2, ht2⟩ := underlyingTransfer_false_ok_iff.mp htr2
  obtain ⟨_, hle3, hs2eq⟩ := burn_ok_iff.mp hbn
  subst ht1 hs1eq ht2 hs2eq
  refine ⟨?_, ?_, ?_, ?_⟩ <;>
    simp [St.bal, dgetD_dset, dset_dset_same, hua, Ne.symm hua] <;>
    ring

/-- The state after `supply(alice, 30)` on `stW`. -/
def stW5a : St :=
  { total_supply := [("usdc", 100), ("a_usdc", 30)],
    underlying_reserves := [("usdc", 30)],
    wallets := [("alice", [("usdc", 70), ("a_usdc", 30)])] }

/-- The state after `withdraw(alice, 30)` on `stW5a`. -/
def stW5b : St :=
  { total_supply := [("usdc", 100), ("a_usdc", 0)],
    underlying_reserves := [("usdc", 0)],
    wallets := [("alice", [("usdc", 100), ("a_usdc", 0)])] }

/-- Witness for C5. -/
theorem claim5_witness :
    dgetD (stW5b.bal "alice") poolUsdc.underlying_token 0 =
      dgetD (stW.bal "alice") poolUsdc.underlying_token 0 ∧
    dgetD (stW5b.bal "alice") poolUsdc.a_token 0 =
      dgetD (stW.bal "alice") poolUsdc.a_token 0 ∧
    dgetD stW5b.underlying_reserves poolUsdc.underlying_token 0 =
      dgetD stW.underlying_reserves poolUsdc.underlying_token 0 ∧
    dgetD stW5b.total_supply poolUsdc.a_token 0 =
      dgetD stW.total_supply poolUsdc.a_token 0 :=
  claim5_round_trip demoConfig poolUsdc "alice" 30 stW stW5a stW5b
    (by decide) (by with_unfolding_all decide) (by with_unfolding_all decide)

/-- C6 counterexample: a wallet whose only holding is 1 `a_usdc` (so every
debt-claim balance is zero) does not get `health_factor = inf` when no
price is set for usdc — the collateral scan raises before the zero-debt
early return, so the computation fails instead. -/
theorem claim6_counterexample :
    ¬ Wallet.health_factor demoConfigNoPrices [("a_usdc", 1)] = some HFVal.inf := by
  with_unfolding_all decide

theorem borrowed_sum_zero {cfg : Config} {bal : List (String × ℚ)}
    (hdebt : ∀ e ∈ bal, ∀ p ∈ cfg.pools, p.v_token = e.1 → e.2 = 0)
    (hprice : ∀ e ∈ bal, ∀ p ∈ cfg.pools, p.v_token = e.1 →
      (priceOf cfg p.underlying_token).isSome) :
    usdSum (borrowedFactor cfg) bal = some 0 := by
  induction bal with
  | nil => rfl
  | cons e rest ih =>
    obtain ⟨s, a⟩ := e
    have hrest : usdSum (borrowedFactor cfg) rest = some 0 :=
      ih (fun x hx => hdebt x (List.mem_cons_of_mem _ hx))
        (fun x hx => hprice x (List.mem_cons_of_mem _ hx))
    cases hv : lookupVPool cfg s with
    | none =>
      have hbf : borrowedFactor cfg s = some 0 := by
        unfold borrowedFactor; rw [hv]
      simp [usdSum, hbf, hrest]
    | some p =>
      obtain ⟨hpmem, hpv⟩ := lookupVPool_spec hv
      have hbf : borrowedFactor cfg s = priceOf cfg p.underlying_token := by
        unfold borrowedFactor; rw [hv]
      have hpr := hprice (s, a) (List.mem_cons_self _ _) p hpmem hpv
      obtain ⟨pr, hpr'⟩ := Option.isSome_iff_exists.mp hpr
      have ha : a = 0 := hdebt (s, a) (List.mem_cons_self _ _) p hpmem hpv
      simp [usdSum, hbf, hpr', hrest, ha]

/-- C6 (amended): a wallet whose every debt-claim balance is zero has
`health_factor = inf` regardless of its collateral amounts — provided the
price of every claim-token holding's underlying is available, because the
collateral and borrow scans dereference those prices before the zero-debt
early return. -/
theorem claim6_idle_health_factor (cfg : Config) (bal : List (String × ℚ))
    (hdebt : ∀ e ∈ bal, ∀ p ∈ cfg.pools, p.v_token = e.1 → e.2 = 0)
    (hprice : ∀ e ∈ bal, ∀ p ∈ cfg.pools,
      (p.a_token = e.1 ∨ p.v_token = e.1) →
        (priceOf cfg p.underlying_token).isSome) :
    Wallet.health_factor cfg bal = some .inf := by
  have hB : usdSum (borrowedFactor cfg) bal = some 0 :=
    borrowed_sum_zero hdebt
      (fun e he p hp hv => hprice e he p hp (Or.inr hv))
  have hCsome : (usdSum (collateralFactor cfg) bal).isSome := by
    rw [usdSum_isSome_iff]
    intro e he
    cases ha : lookupAPool cfg e.1 with
    | none =>
      have : collateralFactor cfg e.1 = some 0 := by
        unfold collateralFactor; rw [ha]
      rw [this]; rfl
    | some p =>
      obtain ⟨hpmem, hpa⟩ := lookupAPool_spec ha
      have : collateralFactor cfg e.1 =
          (priceOf cfg p.underlying_token).map (· * p.max_ltv) := by
        unfold collateralFactor; rw [ha]
      rw [this]
      obtain ⟨pr, hpr⟩ := Option.isSome_iff_exists.mp
        (hprice e he p hpmem (Or.inl hpa))
      rw [hpr]; rfl
  obtain ⟨c, hC⟩ := Option.isSome_iff_exists.mp hCsome
  obtain ⟨wv, hW⟩ := Option.isSome_iff_exists.mp (weightSum_isSome (by rw [hC]; rfl))
  rw [health_factor_eq cfg bal hC hB hW]
  simp

/-- Witness for the amended C6: 5 `a_usdc` of collateral, a zero `v_usdc`
entry, usdc price set. -/
theorem claim6_amended_witness :
    Wallet.health_factor demoConfig [("a_usdc", 5), ("v_usdc", 0)] = some .inf :=
  claim6_idle_health_factor demoConfig [("a_usdc", 5), ("v_usdc", 0)]
    (by with_unfolding_all decide) (by decide)

/-- C9 counterexample: a wallet holding 1 `v_usdc` (a nonzero debt-claim
amount) with no usdc price still gets `total_supplied_usd = 0`
successfully — the supplied-USD scan only visits supply-claim tokens, so
not **every** USD computation fails for this wallet. -/
theorem claim9_counterexample :
    Wallet.total_supplied_usd demoConfigNoPrices [("v_usdc", 1)] = some 0 := by
  with_unfolding_all decide

/-- C9 (amended): a missing price makes exactly the computations that scan
that claim-token kind fail (rather than treating the price as zero): a
nonzero unpriced supply-claim holding fails `total_supplied_usd`,
`total_collateral_usd` and `health_factor`; a nonzero unpriced debt-claim
holding fails `total_borrowed_usd` and `health_factor`.  (In the Python
code the failure is the `TypeError` raised by `amount * None`.) -/
theorem claim9_missing_price (cfg : Config) (bal : List (String × ℚ))
    (s : String) (a : ℚ) (hmem : (s, a) ∈ bal) (ha : a ≠ 0) :
    (∀ p, lookupAPool cfg s = some p → priceOf cfg p.underlying_token = none →
      Wallet.total_supplied_usd cfg bal = none ∧
      Wallet.total_collateral_usd cfg bal = none ∧
      Wallet.health_factor cfg bal = none) ∧
    (∀ p, lookupVPool cfg s = some p → priceOf cfg p.underlying_token = none →
      Wallet.total_borrowed_usd cfg bal = none ∧
      Wallet.health_factor cfg bal = none) := by
  constructor
  · intro p hA hpr
    have hsf : suppliedFactor cfg s = none := by
      have hstep : suppliedFactor cfg s = priceOf cfg p.underlying_token := by
        unfold suppliedFactor; rw [hA]
      rw [hstep, hpr]
    have hcf : collateralFactor cfg s = none := by
      have hstep : collateralFactor cfg s =
          (priceOf cfg p.underlying_token).map (· * p.max_ltv) := by
        unfold collateralFactor; rw [hA]
      rw [hstep, hpr]; rfl
    have h1 : Wallet.total_supplied_usd cfg bal = none := by
      rw [total_supplied_usd_eq]; exact usdSum_none_of_mem hmem hsf
    have h2 : Wallet.total_collateral_usd cfg bal = none := by
      rw [total_collateral_usd_eq]; exact usdSum_none_of_mem hmem hcf
    exact ⟨h1, h2, health_factor_none_of_collateral h2⟩
  · intro p hV hpr
    have hbf : borrowedFactor cfg s = none := by
      have hstep : borrowedFactor cfg s = priceOf cfg p.underlying_token := by
        unfold borrowedFactor; rw [hV]
      rw [hstep, hpr]
    have h1 : Wallet.total_borrowed_usd cfg bal = none := by
      rw [total_borrowed_usd_eq]; exact usdSum_none_of_mem hmem hbf
    exact ⟨h1, health_factor_none_of_borrowed h1⟩

/-- Prices with only usdc set: wbtc has no price. -/
def cfg9 : Config :=
  { pools := [poolUsdc, poolWbtc], prices := [("usdc", 10001/10000)] }

/-- Witness for the amended C9 at a wallet holding 2 unpriced `a_wbtc`. -/
theorem claim9_amended_witness :
    (∀ p, lookupAPool cfg9 "a_wbtc" = some p →
      priceOf cfg9 p.underlying_token = none →
      Wallet.total_supplied_usd cfg9 [("a_wbtc", 2)] = none ∧
      Wallet.total_collateral_usd cfg9 [("a_wbtc", 2)] = none ∧
      Wallet.health_factor cfg9 [("a_wbtc", 2)] = none) ∧
    (∀ p, lookupVPool cfg9 "a_wbtc" = some p →
      priceOf cfg9 p.underlying_token = none →
      Wallet.total_borrowed_usd cfg9 [("a_wbtc", 2)] = none ∧
      Wallet.health_factor cfg9 [("a_wbtc", 2)] = none) :=
  claim9_missing_price cfg9 [("a_wbtc", 2)] "a_wbtc" 2
    (by with_unfolding_all decide) (by with_unfolding_all decide)

/-- C10: if a wallet's balances contain no entry for a supply-claim token,
`health_factor_after` with a collateral change for that token ignores the
delta entirely: it returns the same value as with no collateral change,
which in turn is the plain health factor — so the withdraw gate for a
never-held supply-claim token is evaluated against the unchanged health
factor. -/
theorem claim10_absent_collateral_ignored (cfg : Config) (hwf : cfg.WF)
    (bal : List (String × ℚ)) (aSym : String) (delta : ℚ) (p : LendingPool)
    (hA : lookupAPool cfg aSym = some p) (hmem : aSym ∉ bal.map Prod.fst) :
    Wallet.health_factor_after cfg bal [(aSym, delta)] [] =
      Wallet.health_factor_after cfg bal [] [] ∧
    Wallet.health_factor_after cfg bal [] [] = Wallet.health_factor cfg bal := by
  constructor
  · have htriv : ∀ s ∈ bal.map Prod.fst,
        dgetD ([] : List (String × ℚ)) s 0 = 0 := fun s _ => rfl
    have hscan : Wallet.hfaScan cfg [(aSym, delta)] [] bal =
        Wallet.hfaScan cfg [] [] bal := by
      rw [hfaScan_eq, hfaScan_eq, usdSumD_single_not_mem hmem delta,
        usdSumD_single_not_mem hmem delta, usdSumD_eq_usdSum htriv,
        usdSumD_eq_usdSum htriv, usdSumD_eq_usdSum htriv]
    unfold Wallet.health_factor_after
    rw [hscan]
  · exact hfa_empty_eq_health_factor hwf bal

/-- Witness for C10: alice holds usdc and `v_usdc` debt but no `a_usdc`. -/
theorem claim10_witness :
    Wallet.health_factor_after demoConfig [("usdc", 3), ("v_usdc", 2)]
        [("a_usdc", -5)] [] =
      Wallet.health_factor_after demoConfig [("usdc", 3), ("v_usdc", 2)] [] [] ∧
    Wallet.health_factor_after demoConfig [("usdc", 3), ("v_usdc", 2)] [] [] =
      Wallet.health_factor demoConfig [("usdc", 3), ("v_usdc", 2)] :=
  claim10_absent_collateral_ignored demoConfig (by with_unfolding_all decide)
    [("usdc", 3), ("v_usdc", 2)] "a_usdc" (-5) poolUsdc
    (by with_unfolding_all decide) (by decide)

/-- C8: for every pool, after any sequence of successful pool transitions
starting from pool construction, `utilisation_rate` equals the debt-claim
total supply divided by the supply-claim total supply (`0` when either is
zero) and lies in `[0, 1]`. -/
theorem claim8_utilisation (cfg : Config) (hwf : cfg.WF) (ops : List Op)
    (hops : ∀ o ∈ ops, o.isPoolOp = true) (s0 s1 : St)
    (hwf0 : StWF s0) (hcons : ConsD s0) (hbal : BalNonneg s0) (hres : ResNonneg s0)
    (hinit : ∀ p ∈ cfg.pools,
      dgetD s0.underlying_reserves p.underlying_token 0 = 0 ∧
      dgetD s0.total_supply p.a_token 0 = 0 ∧
      dgetD s0.total_supply p.v_token 0 = 0)
    (hrun : runOk cfg ops s0 = some s1) :
    ∀ p ∈ cfg.pools,
      p.utilisation_rate s1 =
        (if dgetD s1.total_supply p.v_token 0 = 0 ∨
            dgetD s1.total_supply p.a_token 0 = 0 then 0
         else dgetD s1.total_supply p.v_token 0 /
            dgetD s1.total_supply p.a_token 0) ∧
      0 ≤ p.utilisation_rate s1 ∧ p.utilisation_rate s1 ≤ 1 := by
  have hinv1 : Inv0 s1 :=
    runOk_inv0 hrun ⟨hwf0, (cons_iff_consD s0).mpr hcons, hbal, hres⟩
  have hrid : ReserveId cfg s1 := by
    apply runOk_reserveId hwf hops hrun
    intro p hp
    obtain ⟨h1, h2, h3⟩ := hinit p hp
    rw [h1, h2, h3]
    ring
  obtain ⟨hwf1, hcons1, hbal1, hres1⟩ := hinv1
  intro p hp
  have hva : dgetD s1.total_supply p.v_token 0 ≤ dgetD s1.total_supply p.a_token 0 := by
    have hid := hrid p hp
    have hrnn : 0 ≤ dgetD s1.underlying_reserves p.underlying_token 0 :=
      dgetD_nonneg hres1 _
    linarith
  have hv0 : 0 ≤ dgetD s1.total_supply p.v_token 0 := by
    have hcv := hcons1 p.v_token
    have h1 : 0 ≤ sumBal p.v_token s1.wallets := sumBal_nonneg hbal1 _
    have h2 : 0 ≤ dgetD s1.underlying_reserves p.v_token 0 := dgetD_nonneg hres1 _
    linarith
  unfold LendingPool.utilisation_rate
  by_cases hc : dgetD s1.total_supply p.v_token 0 = 0 ∨
      dgetD s1.total_supply p.a_token 0 = 0
  · simp only [if_pos hc]
    refine ⟨by simp, by simp, by simp⟩
  · simp only [if_neg hc]
    push_neg at hc
    have ha0 : 0 < dgetD s1.total_supply p.a_token 0 :=
      lt_of_le_of_ne (le_trans hv0 hva) (Ne.symm hc.2)
    have hvpos : 0 < dgetD s1.total_supply p.v_token 0 :=
      lt_of_le_of_ne hv0 (Ne.symm hc.1)
    have hdiv0 : (0:ℚ) ≤ dgetD s1.total_supply p.v_token 0 /
        dgetD s1.total_supply p.a_token 0 := le_of_lt (div_pos hvpos ha0)
    have hmax : max (0:ℚ) (dgetD s1.total_supply p.v_token 0 /
        dgetD s1.total_supply p.a_token 0) = dgetD s1.total_supply p.v_token 0 /
        dgetD s1.total_supply p.a_token 0 := max_eq_right hdiv0
    refine ⟨hmax, ?_, ?_⟩
    · rw [hmax]; exact hdiv0
    · rw [hmax, div_le_one ha0]; exact hva

/-- Witness for C8 at the usdc pool after `[supply 100, borrow 20]`. -/
theorem claim8_witness :
    poolUsdc.utilisation_rate stW2 =
      (if dgetD stW2.total_supply poolUsdc.v_token 0 = 0 ∨
          dgetD stW2.total_supply poolUsdc.a_token 0 = 0 then 0
       else dgetD stW2.total_supply poolUsdc.v_token 0 /
          dgetD stW2.total_supply poolUsdc.a_token 0) ∧
    0 ≤ poolUsdc.utilisation_rate stW2 ∧ poolUsdc.utilisation_rate stW2 ≤ 1 :=
  claim8_utilisation demoConfig (by decide)
    [.supply "usdc" "alice" 100, .borrow "usdc" "alice" 20] (by decide)
    stW stW2 (by decide) (by with_unfolding_all decide)
    (by with_unfolding_all decide) (by with_unfolding_all decide)
    (by with_unfolding_all decide) (by with_unfolding_all decide)
    poolUsdc (by with_unfolding_all decide)

/-- Whether a call completed without raising. -/
def exceptIsOk {eps alpha : Type} : Except eps alpha → Bool
  | .ok _ => true
  | .error _ => false

theorem borrow_eq_of_parts {cfg : Config} {p : LendingPool} {w : String}
    {amount : ℚ} {s s1 s2 : St} {hf : HFVal}
    (hhfa : Wallet.health_factor_after cfg (s.bal w) [] [(p.v_token, amount)] = some hf)
    (hgt : hf.gtOne = true)
    (htr : p.underlyingTransfer w p.underlying_token amount false s = .ok s1)
    (hm : Token.mint p.v_token w amount s1 = .ok s2) :
    LendingPool.borrow cfg p w amount s = .ok s2 := by
  unfold LendingPool.borrow
  rw [hhfa]
  show (if hf.gtOne = true then
      match p.underlyingTransfer w p.underlying_token amount false s with
      | Except.error e => Except.error e
      | Except.ok s1 => Token.mint p.v_token w amount s1
    else Except.error s) = Except.ok s2
  rw [if_pos hgt, htr]
  exact hm

theorem borrow_error_of_gate {cfg : Config} {p : LendingPool} {w : String}
    {amount : ℚ} {s : St} {hf : HFVal}
    (hhfa : Wallet.health_factor_after cfg (s.bal w) [] [(p.v_token, amount)] = some hf)
    (hgt : hf.gtOne = false) :
    LendingPool.borrow cfg p w amount s = .error s := by
  unfold LendingPool.borrow
  rw [hhfa]
  show (if hf.gtOne = true then
      match p.underlyingTransfer w p.underlying_token amount false s with
      | Except.error e => Except.error e
      | Except.ok s1 => Token.mint p.v_token w amount s1
    else Except.error s) = Except.error s
  rw [if_neg (by rw [hgt]; exact Bool.false_ne_true)]

/-- The post-transaction debt total seen by `borrow`'s gate is
`D + x * price`, whether or not the wallet already holds the debt token. -/
theorem borrow_hfa_value {cfg : Config} (hwf : cfg.WF) {p : LendingPool}
    {w : String} {x : ℚ} {s : St} {C W D pr : ℚ}
    (hva : lookupAPool cfg p.v_token = none)
    (hv : lookupVPool cfg p.v_token = some p)
    (hpr : priceOf cfg p.underlying_token = some pr)
    (hnd : ((s.bal w).map Prod.fst).Nodup)
    (hC : usdSum (collateralFactor cfg) (s.bal w) = some C)
    (hW : usdSum (weightFactor cfg) (s.bal w) = some W)
    (hD : usdSum (borrowedFactor cfg) (s.bal w) = some D)
    (hDx : D + x * pr ≠ 0) :
    Wallet.health_factor_after cfg (s.bal w) [] [(p.v_token, x)] =
      some (.val (C * (if 0 < C then W / C else 0) / (D + x * pr))) := by
  have htriv : ∀ t ∈ (s.bal w).map Prod.fst,
      dgetD ([] : List (String × ℚ)) t 0 = 0 := fun _ _ => rfl
  have hC' : usdSumD (collateralFactor cfg) [] (s.bal w) = some C := by
    rw [usdSumD_eq_usdSum htriv]; exact hC
  have hW' : usdSumD (weightFactor cfg) [] (s.bal w) = some W := by
    rw [usdSumD_eq_usdSum htriv]; exact hW
  have hbscan : usdSum (borrowedScanFactor cfg) (s.bal w) = some D := by
    rw [usdSum_congr (borrowedScanFactor_eq_borrowedFactor hwf)]; exact hD
  have hfv : borrowedScanFactor cfg p.v_token = some pr := by
    unfold borrowedScanFactor
    rw [hva, hv]
    exact hpr
  by_cases hvk : p.v_token ∈ (s.bal w).map Prod.fst
  · have hB' : usdSumD (borrowedScanFactor cfg) [(p.v_token, x)] (s.bal w) =
        some (D + x * pr) := by
      rw [usdSumD_single_mem hnd hvk hfv x, hbscan]
      rfl
    have hN : Wallet.hfaNewDebt cfg ((s.bal w).map Prod.fst) [(p.v_token, x)] =
        some 0 := hfaNewDebt_single_mem cfg hvk x
    rw [health_factor_after_eq cfg (s.bal w) [] [(p.v_token, x)] hC' hW' hB' hN]
    rw [if_neg (by rw [add_zero]; exact hDx)]
    rw [add_zero]
  · have hB' : usdSumD (borrowedScanFactor cfg) [(p.v_token, x)] (s.bal w) =
        some D := by
      rw [usdSumD_single_not_mem hvk x]
      exact hbscan
    have hN : Wallet.hfaNewDebt cfg ((s.bal w).map Prod.fst) [(p.v_token, x)] =
        some (x * pr) := hfaNewDebt_single_not_mem cfg hvk hva hv hpr x
    rw [health_factor_after_eq cfg (s.bal w) [] [(p.v_token, x)] hC' hW' hB' hN]
    rw [if_neg hDx]

theorem borrow_isOk_of {cfg : Config} {p : LendingPool} {w : String}
    {amount : ℚ} {s : St} {hf : HFVal}
    (hhfa : Wallet.health_factor_after cfg (s.bal w) [] [(p.v_token, amount)] = some hf)
    (hgt : hf.gtOne = true) (hx : 0 < amount)
    (hres : amount ≤ dgetD s.underlying_reserves p.underlying_token 0) :
    exceptIsOk (LendingPool.borrow cfg p w amount s) = true := by
  have htr : p.underlyingTransfer w p.underlying_token amount false s = .ok
      { s with
        underlying_reserves := dset s.underlying_reserves p.underlying_token
          (dgetD s.underlying_reserves p.underlying_token 0 - amount),
        wallets := dset s.wallets w (dset (s.bal w) p.underlying_token
          (dgetD (s.bal w) p.underlying_token 0 + amount)) } :=
    underlyingTransfer_false_ok_iff.mpr ⟨hx, hres, rfl⟩
  cases hm : Token.mint p.v_token w amount
      { s with
        underlying_reserves := dset s.underlying_reserves p.underlying_token
          (dgetD s.underlying_reserves p.underlying_token 0 - amount),
        wallets := dset s.wallets w (dset (s.bal w) p.underlying_token
          (dgetD (s.bal w) p.underlying_token 0 + amount)) } with
  | error e =>
    obtain ⟨hneg, _⟩ := mint_error_iff.mp hm
    exact absurd hx hneg
  | ok s2 =>
    rw [borrow_eq_of_parts hhfa hgt htr hm]
    rfl

/-- A wallet with ample collateral and empty pool: the canonical pools with
both prices `1`. -/
def cfg4 : Config :=
  { pools := [poolUsdc, poolWbtc], prices := [("usdc", 1), ("wbtc", 1)] }

def st4 : St :=
  { total_supply := [("a_usdc", 100)],
    underlying_reserves := [],
    wallets := [("alice", [("a_usdc", 100)])] }

/-- C4 counterexample: with collateral `C·T = 56.94`, debt `D = 0`, price
`1` and `x = 1` we have `(C·T)/(D+x) > 1` — the solvency gate passes — yet
`borrow(alice, 1)` fails, because the wbtc pool reserve is `0`: success is
not equivalent to the health-factor inequality alone. -/
theorem claim4_counterexample :
    (Wallet.health_factor_after cfg4 (st4.bal "alice") [] [("v_wbtc", 1)]).map
        HFVal.gtOne = some true ∧
    LendingPool.borrow cfg4 poolWbtc "alice" 1 st4 = .error st4 :=
  ⟨by with_unfolding_all decide, by with_unfolding_all decide⟩

/-- C4 (amended): for a wallet with collateral `C` (weighted threshold `T`,
all prices set and positive, borrowed-token price `pr`), current debt `D ≥ 0`
and pool reserve at least `x`, `borrow(w, x)` with `x > 0` succeeds iff
`(C·T)/(D + x·pr) > 1`, i.e. iff `x·pr < C·T − D`; at exactly
`x·pr = C·T − D` the call fails and performs no state change. -/
theorem claim4_solvency_gate (cfg : Config) (hwf : cfg.WF) (p : LendingPool)
    (w : String) (x : ℚ) (s : St) (C W D pr : ℚ)
    (hva : lookupAPool cfg p.v_token = none)
    (hv : lookupVPool cfg p.v_token = some p)
    (hpr : priceOf cfg p.underlying_token = some pr) (hprpos : 0 < pr)
    (hnd : ((s.bal w).map Prod.fst).Nodup)
    (hC : usdSum (collateralFactor cfg) (s.bal w) = some C)
    (hW : usdSum (weightFactor cfg) (s.bal w) = some W)
    (hD : usdSum (borrowedFactor cfg) (s.bal w) = some D)
    (hD0 : 0 ≤ D) (hx : 0 < x)
    (hres : x ≤ dgetD s.underlying_reserves p.underlying_token 0) :
    (exceptIsOk (LendingPool.borrow cfg p w x s) = true ↔
      x * pr < C * (if 0 < C then W / C else 0) - D) ∧
    (x * pr = C * (if 0 < C then W / C else 0) - D →
      LendingPool.borrow cfg p w x s = .error s) := by
  have hDxpos : 0 < D + x * pr := by positivity
  have hhfa := borrow_hfa_value hwf hva hv hpr hnd hC hW hD (ne_of_gt hDxpos)
  have hgt_iff : (HFVal.val (C * (if 0 < C then W / C else 0) / (D + x * pr))).gtOne
      = true ↔ x * pr < C * (if 0 < C then W / C else 0) - D := by
    unfold HFVal.gtOne
    rw [decide_eq_true_eq, one_lt_div hDxpos]
    constructor <;> intro h <;> linarith
  constructor
  · constructor
    · intro hok
      by_cases hgt : (HFVal.val (C * (if 0 < C then W / C else 0) /
          (D + x * pr))).gtOne = true
      · exact hgt_iff.mp hgt
      · rw [borrow_error_of_gate hhfa (Bool.not_eq_true _ ▸ hgt)] at hok
        exact absurd hok (by simp [exceptIsOk])
    · intro hlt
      exact borrow_isOk_of hhfa (hgt_iff.mpr hlt) hx hres
  · intro heq
    have hone : C * (if 0 < C then W / C else 0) / (D + x * pr) = 1 := by
      rw [show C * (if 0 < C then W / C else 0) = D + x * pr by linarith]
      exact div_self (ne_of_gt hDxpos)
    apply borrow_error_of_gate hhfa
    rw [hone]
    unfold HFVal.gtOne
    simp

/-- A state where alice holds collateral and the wbtc pool has reserve. -/
def st4w : St :=
  { total_supply := [("a_usdc", 100), ("wbtc", 1), ("a_wbtc", 1)],
    underlying_reserves := [("wbtc", 1)],
    wallets := [("alice", [("a_usdc", 100)]), ("bob", [("a_wbtc", 1)])] }

/-- A pool pair with dyadic risk parameters, used to instantiate witnesses
(kernel-friendly arithmetic; the claims themselves are proved for every
configuration). -/
def poolA : LendingPool :=
  { underlying_token := "tokA", a_token := "a_tokA", v_token := "v_tokA",
    interest_rate := 0, reserve_rate := 0, max_ltv := 1/2,
    liquidation_bonus := 0, liquidation_threshold := 1/2, closing_factor := 1/2 }

def poolB : LendingPool :=
  { underlying_token := "tokB", a_token := "a_tokB", v_token := "v_tokB",
    interest_rate := 0, reserve_rate := 0, max_ltv := 1/2,
    liquidation_bonus := 0, liquidation_threshold := 1/2, closing_factor := 1/2 }

def cfgW : Config :=
  { pools := [poolA, poolB], prices := [("tokA", 1), ("tokB", 1)] }

/-- alice holds 100 `a_tokA` of collateral; the tokB pool has 1 in reserve. -/
def stW4 : St :=
  { total_supply := [("a_tokA", 100), ("tokB", 1), ("a_tokB", 1)],
    underlying_reserves := [("tokB", 1)],
    wallets := [("alice", [("a_tokA", 100)]), ("bob", [("a_tokB", 1)])] }

/-- Witness for the amended C4: alice borrows 1 tokB (price 1) against 100
`a_tokA` of collateral (`C = 50`, `W = 25`, `D = 0`). -/
theorem claim4_amended_witness :
    (exceptIsOk (LendingPool.borrow cfgW poolB "alice" 1 stW4) = true ↔
      (1:ℚ) * 1 < 50 * (if (0:ℚ) < 50 then 25 / 50 else 0) - 0) ∧
    ((1:ℚ) * 1 = 50 * (if (0:ℚ) < 50 then 25 / 50 else 0) - 0 →
      LendingPool.borrow cfgW poolB "alice" 1 stW4 = .error stW4) :=
  claim4_solvency_gate cfgW (by decide) poolB "alice" 1 stW4 50 25 0 1
    (by with_unfolding_all decide) (by with_unfolding_all decide)
    (by with_unfolding_all decide) (by with_unfolding_all decide)
    (by decide) (by with_unfolding_all decide) (by with_unfolding_all decide)
    (by with_unfolding_all decide) (by with_unfolding_all decide)
    (by with_unfolding_all decide) (by with_unfolding_all decide)

theorem HFVal.le_inf (a : HFVal) : a.le .inf := by
  cases a <;> exact trivial

theorem HFVal.val_le_val {a b : ℚ} : (HFVal.val a).le (.val b) ↔ a ≤ b := Iff.rfl

/-- `St.bal` after writing wallet `w`. -/
theorem bal_set_wallet (s : St) (w : String) (b : List (String × ℚ))
    (ts rs : List (String × ℚ)) :
    St.bal { total_supply := ts, underlying_reserves := rs,
             wallets := dset s.wallets w b } w = b := by
  simp [St.bal, dgetD]

/-- C7: with all relevant prices set and positive (and non-negative risk
parameters and balances), a successful `supply(w, A)` or `repay(w, A)`
never decreases the wallet's health factor. -/
theorem claim7_supply_repay_monotone (cfg : Config) (hwf : cfg.WF)
    (hp : PricesPos cfg) (hpar : ParamsNonneg cfg)
    (p : LendingPool) (w : String) (A : ℚ) (s s' : St) (pr : ℚ)
    (hap : lookupAPool cfg p.a_token = some p)
    (hvp : lookupVPool cfg p.v_token = some p)
    (huA : lookupAPool cfg p.underlying_token = none)
    (huV : lookupVPool cfg p.underlying_token = none)
    (hpr : priceOf cfg p.underlying_token = some pr)
    (hnd : ((s.bal w).map Prod.fst).Nodup)
    (hbal : ∀ e ∈ s.bal w, 0 ≤ e.2)
    (h1 h2 : HFVal)
    (hhf1 : Wallet.health_factor cfg (s.bal w) = some h1)
    (hhf2 : Wallet.health_factor cfg (s'.bal w) = some h2) :
    (p.supply w A s = .ok s' → h1.le h2) ∧
    (p.repay w A s = .ok s' → h1.le h2) := by
  have hpmem : p ∈ cfg.pools := (lookupAPool_spec hap).1
  have hprpos : 0 < pr := priceOf_pos hp hpr
  have hua : p.underlying_token ≠ p.a_token := by
    intro hc
    rw [← hc, huA] at hap
    exact Option.noConfusion hap
  have huv : p.underlying_token ≠ p.v_token := by
    intro hc
    rw [← hc, huV] at hvp
    exact Option.noConfusion hvp
  have hav : lookupVPool cfg p.a_token = none := by
    rcases hwf.aPool_vPool_disjoint p.a_token with h | h
    · rw [hap] at h; exact Option.noConfusion h
    · exact h
  have hva : lookupAPool cfg p.v_token = none := by
    rcases hwf.aPool_vPool_disjoint p.v_token with h | h
    · exact h
    · rw [hvp] at h; exact Option.noConfusion h
  have cFa : collateralFactor cfg p.a_token = some (pr * p.max_ltv) := by
    have hstep : collateralFactor cfg p.a_token =
        (priceOf cfg p.underlying_token).map (· * p.max_ltv) := by
      unfold collateralFactor; rw [hap]
    rw [hstep, hpr]; rfl
  have wFa : weightFactor cfg p.a_token =
      some (pr * p.max_ltv * p.liquidation_threshold) := by
    have hstep : weightFactor cfg p.a_token = (priceOf cfg p.underlying_token).map
        (· * p.max_ltv * p.liquidation_threshold) := by
      unfold weightFactor; rw [hap]
    rw [hstep, hpr]; rfl
  have bFa : borrowedFactor cfg p.a_token = some 0 := by
    unfold borrowedFactor; rw [hav]
  have cFu : collateralFactor cfg p.underlying_token = some 0 := by
    unfold collateralFactor; rw [huA]
  have wFu : weightFactor cfg p.underlying_token = some 0 := by
    unfold weightFactor; rw [huA]
  have bFu : borrowedFactor cfg p.underlying_token = some 0 := by
    unfold borrowedFactor; rw [huV]
  have cFv : collateralFactor cfg p.v_token = some 0 := by
    unfold collateralFactor; rw [hva]
  have wFv : weightFactor cfg p.v_token = some 0 := by
    unfold weightFactor; rw [hva]
  have bFv : borrowedFactor cfg p.v_token = some pr := by
    have hstep : borrowedFactor cfg p.v_token = priceOf cfg p.underlying_token := by
      unfold borrowedFactor; rw [hvp]
    rw [hstep, hpr]
  -- the aggregates of the pre-state wallet
  obtain ⟨C, hC⟩ : ∃ C, usdSum (collateralFactor cfg) (s.bal w) = some C := by
    cases hc : usdSum (collateralFactor cfg) (s.bal w) with
    | none =>
      rw [health_factor_none_of_collateral
        (by rw [total_collateral_usd_eq, hc])] at hhf1
      exact Option.noConfusion hhf1
    | some c => exact ⟨c, rfl⟩
  obtain ⟨D, hD⟩ : ∃ D, usdSum (borrowedFactor cfg) (s.bal w) = some D := by
    cases hc : usdSum (borrowedFactor cfg) (s.bal w) with
    | none =>
      rw [health_factor_none_of_borrowed
        (by rw [total_borrowed_usd_eq, hc])] at hhf1
      exact Option.noConfusion hhf1
    | some c => exact ⟨c, rfl⟩
  obtain ⟨W, hW⟩ : ∃ W, usdSum (weightFactor cfg) (s.bal w) = some W :=
    Option.isSome_iff_exists.mp (weightSum_isSome (by rw [hC]; rfl))
  have hh1 : h1 = if D = 0 then .inf else .val (W / D) := by
    have := health_factor_normal cfg (s.bal w) hp hpar hbal hC hD hW
    rw [hhf1, ← apply_ite some] at this
    exact Option.some.inj this
  have hD0 : 0 ≤ D :=
    usdSum_nonneg hbal (fun t c h => borrowedFactor_nonneg hp t h) hD
  have hW0 : 0 ≤ W :=
    usdSum_nonneg hbal (fun t c h => weightFactor_nonneg hp hpar t h) hW
  constructor
  · -- supply
    intro hsup
    obtain ⟨t1, htr, hm⟩ := supply_decomp hsup
    obtain ⟨hA0, hle, ht1⟩ := underlyingTransfer_true_ok_iff.mp htr
    obtain ⟨_, hs'eq⟩ := mint_ok_iff.mp hm
    have hb1 : t1.bal w = dset (s.bal w) p.underlying_token
        (dgetD (s.bal w) p.underlying_token 0 - A) := by
      rw [ht1]; exact bal_set_wallet s w _ _ _
    have hb2 : s'.bal w = dset (t1.bal w) p.a_token
        (dgetD (t1.bal w) p.a_token 0 + A) := by
      rw [hs'eq]; exact bal_set_wallet t1 w _ _ _
    rw [hb1] at hb2
    have hndB1 : ((dset (s.bal w) p.underlying_token
        (dgetD (s.bal w) p.underlying_token 0 - A)).map Prod.fst).Nodup :=
      keys_dset_nodup _ _ hnd
    have hbalB1 : ∀ e ∈ dset (s.bal w) p.underlying_token
        (dgetD (s.bal w) p.underlying_token 0 - A), 0 ≤ e.2 := by
      intro e he
      rcases mem_dset he with he | he
      · exact hbal e he
      · rw [he]; dsimp only; linarith
    have hCmid : usdSum (collateralFactor cfg) (dset (s.bal w) p.underlying_token
        (dgetD (s.bal w) p.underlying_token 0 - A)) = some C := by
      rw [usdSum_dset_zero hnd cFu]; exact hC
    have hWmid : usdSum (weightFactor cfg) (dset (s.bal w) p.underlying_token
        (dgetD (s.bal w) p.underlying_token 0 - A)) = some W := by
      rw [usdSum_dset_zero hnd wFu]; exact hW
    have hDmid : usdSum (borrowedFactor cfg) (dset (s.bal w) p.underlying_token
        (dgetD (s.bal w) p.underlying_token 0 - A)) = some D := by
      rw [usdSum_dset_zero hnd bFu]; exact hD
    have hC' : usdSum (collateralFactor cfg) (s'.bal w) =
        some (C + A * (pr * p.max_ltv)) := by
      rw [hb2, usdSum_dset hndB1 cFa, hCmid]
      simp only [Option.map_some', Option.some.injEq]
      ring
    have hW' : usdSum (weightFactor cfg) (s'.bal w) =
        some (W + A * (pr * p.max_ltv * p.liquidation_threshold)) := by
      rw [hb2, usdSum_dset hndB1 wFa, hWmid]
      simp only [Option.map_some', Option.some.injEq]
      ring
    have hD' : usdSum (borrowedFactor cfg) (s'.bal w) = some D := by
      rw [hb2, usdSum_dset_zero hndB1 bFa]
      exact hDmid
    have hbal' : ∀ e ∈ s'.bal w, 0 ≤ e.2 := by
      rw [hb2]
      intro e he
      rcases mem_dset he with he | he
      · exact hbalB1 e he
      · rw [he]; dsimp only
        have := dgetD_nonneg hbalB1 p.a_token
        linarith
    have hh2 : h2 = if D = 0 then .inf
        else .val ((W + A * (pr * p.max_ltv * p.liquidation_threshold)) / D) := by
      have := health_factor_normal cfg (s'.bal w) hp hpar hbal' hC' hD' hW'
      rw [hhf2, ← apply_ite some] at this
      exact Option.some.inj this
    rw [hh1, hh2]
    by_cases hz : D = 0
    · simp only [if_pos hz]
      exact HFVal.le_inf _
    · simp only [if_neg hz]
      rw [HFVal.val_le_val]
      have hDpos : 0 < D := lt_of_le_of_ne hD0 (Ne.symm hz)
      rw [div_le_div_iff_of_pos_right hDpos]
      have hδ : 0 ≤ A * (pr * p.max_ltv * p.liquidation_threshold) := by
        have hparp := hpar p hpmem
        have : 0 ≤ pr * p.max_ltv * p.liquidation_threshold := by
          apply mul_nonneg (mul_nonneg (le_of_lt hprpos) hparp.1) hparp.2
        exact mul_nonneg (le_of_lt hA0) this
      linarith
  · -- repay
    intro hrep
    obtain ⟨t1, htr, hbn⟩ := repay_decomp hrep
    obtain ⟨hA0, hle, ht1⟩ := underlyingTransfer_true_ok_iff.mp htr
    obtain ⟨_, hlev, hs'eq⟩ := burn_ok_iff.mp hbn
    have hb1 : t1.bal w = dset (s.bal w) p.underlying_token
        (dgetD (s.bal w) p.underlying_token 0 - A) := by
      rw [ht1]; exact bal_set_wallet s w _ _ _
    have hb2 : s'.bal w = dset (t1.bal w) p.v_token
        (dgetD (t1.bal w) p.v_token 0 - A) := by
      rw [hs'eq]; exact bal_set_wallet t1 w _ _ _
    rw [hb1] at hb2 hlev
    have hbv : dgetD (dset (s.bal w) p.underlying_token
        (dgetD (s.bal w) p.underlying_token 0 - A)) p.v_token 0 =
        dgetD (s.bal w) p.v_token 0 := dgetD_dset_ne _ _ _ _ _ huv
    rw [hbv] at hb2 hlev
    have hndB1 : ((dset (s.bal w) p.underlying_token
        (dgetD (s.bal w) p.underlying_token 0 - A)).map Prod.fst).Nodup :=
      keys_dset_nodup _ _ hnd
    have hbalB1 : ∀ e ∈ dset (s.bal w) p.underlying_token
        (dgetD (s.bal w) p.underlying_token 0 - A), 0 ≤ e.2 := by
      intro e he
      rcases mem_dset he with he | he
      · exact hbal e he
      · rw [he]; dsimp only; linarith
    have hC' : usdSum (collateralFactor cfg) (s'.bal w) = some C := by
      rw [hb2, usdSum_dset_zero hndB1 cFv, usdSum_dset_zero hnd cFu]
      exact hC
    have hW' : usdSum (weightFactor cfg) (s'.bal w) = some W := by
      rw [hb2, usdSum_dset_zero hndB1 wFv, usdSum_dset_zero hnd wFu]
      exact hW
    have hDmid : usdSum (borrowedFactor cfg) (dset (s.bal w) p.underlying_token
        (dgetD (s.bal w) p.underlying_token 0 - A)) = some D := by
      rw [usdSum_dset_zero hnd bFu]; exact hD
    have hD' : usdSum (borrowedFactor cfg) (s'.bal w) = some (D - A * pr) := by
      rw [hb2, usdSum_dset hndB1 bFv, hDmid, hbv]
      simp only [Option.map_some', Option.some.injEq]
      ring
    have hbal' : ∀ e ∈ s'.bal w, 0 ≤ e.2 := by
      rw [hb2]
      intro e he
      rcases mem_dset he with he | he
      · exact hbalB1 e he
      · rw [he]; dsimp only; linarith
    have hh2 : h2 = if D - A * pr = 0 then .inf else .val (W / (D - A * pr)) := by
      have := health_factor_normal cfg (s'.bal w) hp hpar hbal' hC' hD' hW'
      rw [hhf2, ← apply_ite some] at this
      exact Option.some.inj this
    -- the wallet must hold at least A of the debt token, so D ≥ A·pr > 0
    have hyv : 0 < dgetD (s.bal w) p.v_token 0 := lt_of_lt_of_le hA0 hlev
    have hvmem : (p.v_token, dgetD (s.bal w) p.v_token 0) ∈ s.bal w := by
      cases hg : dget (s.bal w) p.v_token with
      | none =>
        exfalso
        have hz0 : dgetD (s.bal w) p.v_token 0 = 0 := by
          unfold dgetD; rw [hg]; rfl
        rw [hz0] at hyv
        exact lt_irrefl 0 hyv
      | some y =>
        have hval : dgetD (s.bal w) p.v_token 0 = y := by
          unfold dgetD; rw [hg]; rfl
        rw [hval]
        exact dget_mem hg
    have hDge : dgetD (s.bal w) p.v_token 0 * pr ≤ D :=
      usdSum_term_le hbal (fun t c h => borrowedFactor_nonneg hp t h) hvmem bFv hD
    have hApr : A * pr ≤ dgetD (s.bal w) p.v_token 0 * pr :=
      mul_le_mul_of_nonneg_right hlev (le_of_lt hprpos)
    have hDpos : 0 < D :=
      lt_of_lt_of_le (mul_pos hyv hprpos) hDge
    rw [hh1, hh2, if_neg (ne_of_gt hDpos)]
    by_cases hz : D - A * pr = 0
    · simp only [if_pos hz]
      exact HFVal.le_inf _
    · simp only [if_neg hz]
      rw [HFVal.val_le_val]
      have hD'pos : 0 < D - A * pr :=
        lt_of_le_of_ne (by linarith) (Ne.symm hz)
      rw [div_le_div_iff hDpos hD'pos]
      have hWApr : 0 ≤ W * (A * pr) := mul_nonneg hW0 (mul_pos hA0 hprpos).le
      nlinarith [hWApr]

def st7 : St :=
  { total_supply := [], underlying_reserves := [],
    wallets := [("alice", [("tokA", 2)])] }

def st7b : St :=
  { total_supply := [("a_tokA", 1)],
    underlying_reserves := [("tokA", 1)],
    wallets := [("alice", [("tokA", 1), ("a_tokA", 1)])] }

theorem claim7_witness :
    (LendingPool.supply poolA "alice" 1 st7 = .ok st7b → HFVal.le .inf .inf) ∧
    (LendingPool.repay poolA "alice" 1 st7 = .ok st7b → HFVal.le .inf .inf) :=
  claim7_supply_repay_monotone cfgW (by with_unfolding_all decide)
    (by with_unfolding_all decide) (by with_unfolding_all decide)
    poolA "alice" 1 st7 st7b 1
    (by with_unfolding_all decide) (by with_unfolding_all decide)
    (by with_unfolding_all decide) (by with_unfolding_all decide)
    (by with_unfolding_all decide) (by with_unfolding_all decide)
    (by with_unfolding_all decide) .inf .inf
    (by with_unfolding_all decide) (by with_unfolding_all decide)

end Defi
